import Mathlib

/-!
Shallow embedding of the gotfiles dotfile-migration tool.

The filesystem is modelled as a rooted tree of nodes: regular files carry
their byte content and permission bits, directories carry permission bits
and an ordered list of named children, and symbolic links carry a target
path.  Paths are lists of name components (filepath.Join is list append).

Modelling notes, applying to every definition below:
* permission enforcement, ownership and access errors are not modelled, so
  an lstat either finds an entry or reports not-exist; the source branch
  that logs a non-not-exist access error is therefore unreachable in the
  model;
* symbolic-link chains and links appearing as intermediate path components
  are not resolved; a stat resolves one final link level;
* the recursion of copyDir is driven by the snapshot of the source subtree
  taken at call time, which coincides with the source code whenever the
  destination does not alias into the source subtree (true in every use
  here, where the source lies under the home directory and the destination
  under the repository);
* external git subprocess calls have no filesystem effect on the modelled
  tree and are omitted;
* fmt.Printf and log.Printf calls are recorded as events carrying the
  format string of the source call.
-/

namespace Gotfiles

abbrev Path := List String

inductive Node where
| file (content : List Nat) (perm : Nat)
| dir (perm : Nat) (children : List (String × Node))
| symlink (target : Path)
deriving Repr

/-- Association lookup among the named children of a directory. -/
def findChild : List (String × Node) → String → Option Node
| [], _ => none
| (n, v) :: rest, name => if n = name then some v else findChild rest name

/-- Replace the binding for a name, or append it when absent. -/
def setChild : List (String × Node) → String → Node → List (String × Node)
| [], name, v => [(name, v)]
| (n, w) :: rest, name, v =>
  if n = name then (n, v) :: rest else (n, w) :: setChild rest name v

/-- Drop the binding for a name. -/
def delChild : List (String × Node) → String → List (String × Node)
| [], _ => []
| (n, w) :: rest, name =>
  if n = name then rest else (n, w) :: delChild rest name

def hasKey : List (String × Node) → String → Bool
| [], _ => false
| (n, _) :: rest, name => if n = name then true else hasKey rest name

/-- Child names are pairwise distinct (the invariant of a real directory). -/
def nodupKeys : List (String × Node) → Bool
| [] => true
| (n, _) :: rest => !hasKey rest n && nodupKeys rest

/-- os.Lstat: walk the path through directories without resolving links. -/
def lookup : Node → Path → Option Node
| n, [] => some n
| Node.dir _ cs, name :: rest =>
  match findChild cs name with
  | some c => lookup c rest
  | none => none
| _, _ :: _ => none

/-- os.Stat: as lookup, but resolve a symbolic link at the final component
(one level; link chains are not modelled). -/
def stat (fs : Node) (p : Path) : Option Node :=
  match lookup fs p with
  | some (Node.symlink t) =>
    match lookup fs t with
    | some (Node.symlink _) => none
    | r => r
  | r => r

/-- Write the given node at a path whose parent chain consists of existing
directories; used to model file creation and os.Symlink. -/
def setAt : Node → Path → Node → Option Node
| Node.dir m cs, name :: rest, v =>
  match rest with
  | [] => some (Node.dir m (setChild cs name v))
  | _ :: _ =>
    match findChild cs name with
    | some c =>
      match setAt c rest v with
      | some c2 => some (Node.dir m (setChild cs name c2))
      | none => none
    | none => none
| _, _, _ => none

/-- Delete the entry at a path whose parent chain consists of existing
directories. -/
def removeAt : Node → Path → Option Node
| Node.dir m cs, name :: rest =>
  match rest with
  | [] => some (Node.dir m (delChild cs name))
  | _ :: _ =>
    match findChild cs name with
    | some c =>
      match removeAt c rest with
      | some c2 => some (Node.dir m (setChild cs name c2))
      | none => none
    | none => none
| _, _ => none

/-- os.Remove: deletes a file, a symbolic link or an empty directory;
fails on a non-empty directory or a missing path. -/
def osRemove (fs : Node) (p : Path) : Option Node :=
  match lookup fs p with
  | none => none
  | some (Node.dir _ (_ :: _)) => none
  | some _ => removeAt fs p

/-- os.RemoveAll: deletes the whole subtree at a path; reports no error
when the path is missing or unreachable, leaving the tree unchanged. -/
def removeAll : Node → Path → Node
| Node.dir m cs, name :: rest =>
  match rest with
  | [] => Node.dir m (delChild cs name)
  | _ :: _ =>
    match findChild cs name with
    | some c => Node.dir m (setChild cs name (removeAll c rest))
    | none => Node.dir m cs
| n, _ => n

/-- os.MkdirAll: create every missing component of the path as a directory
with the given permission bits; fail when an existing component is not a
directory. -/
def mkdirAll : Node → Path → Nat → Option Node
| Node.dir m cs, [], _ => some (Node.dir m cs)
| Node.dir m cs, name :: rest, perm =>
  match findChild cs name with
  | some c =>
    match mkdirAll c rest perm with
    | some c2 => some (Node.dir m (setChild cs name c2))
    | none => none
  | none =>
    match mkdirAll (Node.dir perm []) rest perm with
    | some c2 => some (Node.dir m (setChild cs name c2))
    | none => none
| _, _, _ => none

/-- os.Create: create or truncate a regular file with default permission
bits 0o666; fails when the path names an existing directory or link, or
when the parent chain is not in place. -/
def osCreate (fs : Node) (p : Path) : Option Node :=
  match lookup fs p with
  | some (Node.dir _ _) => none
  | some (Node.symlink _) => none
  | _ => setAt fs p (Node.file [] 0o666)

/-- The permission bits os.FileInfo.Mode would report for a node. -/
def Node.permOf : Node → Nat
| Node.file _ p => p
| Node.dir p _ => p
| Node.symlink _ => 0o777

/-- copyFile from the source (both program variants, identical text):
open the source, MkdirAll the destination parent with 0o755, Create the
destination, then io.Copy the bytes.  An io.Copy from an opened directory
fails after the truncating Create, leaving an empty file behind. -/
def copyFile (fs : Node) (src dst : Path) : Node × Bool :=
  match stat fs src with
  | none => (fs, false)
  | some srcNode =>
    match mkdirAll fs dst.dropLast 0o755 with
    | none => (fs, false)
    | some fs1 =>
      match osCreate fs1 dst with
      | none => (fs1, false)
      | some fs2 =>
        match srcNode with
        | Node.file c _ =>
          match setAt fs2 dst (Node.file c 0o666) with
          | some fs3 => (fs3, true)
          | none => (fs2, false)
        | _ => (fs2, false)

mutual

/-- Body of copyDir once the source has been stat-ed: MkdirAll the
destination with the source permission bits, then walk the entries
(ReadDir fails on a non-directory source). -/
def copyDirFrom : Node → Node → Path → Path → Node × Bool
| srcNode, fs, src, dst =>
  match mkdirAll fs dst srcNode.permOf with
  | none => (fs, false)
  | some fs1 =>
    match srcNode with
    | Node.dir _ cs => copyEntries cs fs1 src dst
    | _ => (fs1, false)

/-- The entry loop of copyDir: directories recurse, everything else goes
through copyFile; the first failing entry aborts the loop. -/
def copyEntries : List (String × Node) → Node → Path → Path → Node × Bool
| [], fs, _, _ => (fs, true)
| (name, child) :: rest, fs, src, dst =>
  match child with
  | Node.dir _ _ =>
    match copyDirFrom child fs (src ++ [name]) (dst ++ [name]) with
    | (fs1, true) => copyEntries rest fs1 src dst
    | (fs1, false) => (fs1, false)
  | _ =>
    match copyFile fs (src ++ [name]) (dst ++ [name]) with
    | (fs1, true) => copyEntries rest fs1 src dst
    | (fs1, false) => (fs1, false)

end

/-- copyDir from src/unnamed/part_000 lines 55-85. -/
def copyDir (fs : Node) (src dst : Path) : Node × Bool :=
  match stat fs src with
  | none => (fs, false)
  | some srcNode => copyDirFrom srcNode fs src dst

/-- Observable console output: fmt.Printf events and log.Printf events,
each carrying the format string of the corresponding source call. -/
inductive Ev where
| printed (s : String)
| logged (s : String)
deriving Repr, DecidableEq

def Ev.isPrint : Ev → Bool
| Ev.printed _ => true
| Ev.logged _ => false

def skipMsg : String := "Skipping backup for %s as it is already a symlink.\n"
def copiedDirMsg : String := "Copied directory %s to repository.\n"
def updatedDirMsg : String := "Updated directory %s in repository.\n"
def copyDirErrMsg : String := "Error copying directory %s: %v"
def removeDirErrMsg : String := "Error removing original directory %s: %v"
def copiedFileMsg : String := "Copied file %s to repository.\n"
def updatedFileMsg : String := "Updated file %s in repository.\n"
def copyFileErrMsg : String := "Error copying file %s: %v"
def removeFileErrMsg : String := "Error removing original file %s: %v"
def missingMsg : String := "%s does not exist in home."
def noBackupMsg : String := "No backup for %s found in repository."
def symlinkErrMsg : String := "Error creating symlink for %s: %v"
def createdLinkMsg : String := "Created symlink for %s.\n"

/-- The copy-and-delete half of processPath (src/unnamed/part_000 lines
92-131): skip a symbolic link, recursively copy then RemoveAll a
directory, copy then Remove a regular file, and log a missing source.
RemoveAll never fails in the model, so its error log is omitted. -/
def backupPhase (fs : Node) (sourcePath destPath : Path) (isSync : Bool) :
    Node × List Ev :=
  match lookup fs sourcePath with
  | some fi =>
    match fi with
    | Node.symlink _ => (fs, [Ev.printed skipMsg])
    | Node.dir _ _ =>
      match copyDir fs sourcePath destPath with
      | (fs1, ok) =>
        let evs :=
          if ok then
            [Ev.printed (if isSync then updatedDirMsg else copiedDirMsg)]
          else [Ev.logged copyDirErrMsg]
        (removeAll fs1 sourcePath, evs)
    | Node.file _ _ =>
      match copyFile fs sourcePath destPath with
      | (fs1, ok) =>
        let evs :=
          if ok then
            [Ev.printed (if isSync then updatedFileMsg else copiedFileMsg)]
          else [Ev.logged copyFileErrMsg]
        match osRemove fs1 sourcePath with
        | some fs2 => (fs2, evs)
        | none => (fs1, evs ++ [Ev.logged removeFileErrMsg])
  | none => (fs, [Ev.logged missingMsg])

/-- The symlink half of processPath (lines 133-144), shared verbatim by
processFile in src/main.go (lines 62-73): when the source is gone and the
repository holds a backup, link the source to the destination. -/
def symlinkPhase (fs : Node) (sourcePath destPath : Path) : Node × List Ev :=
  match lookup fs sourcePath with
  | none =>
    match stat fs destPath with
    | some _ =>
      match setAt fs sourcePath (Node.symlink destPath) with
      | some fs1 => (fs1, [Ev.printed createdLinkMsg])
      | none => (fs, [Ev.logged symlinkErrMsg])
    | none => (fs, [Ev.logged noBackupMsg])
  | some _ => (fs, [])

/-- processPath from src/unnamed/part_000 lines 88-145. -/
def processPath (fs : Node) (item homeDir dotfilesRepoDir : Path)
    (isSync : Bool) : Node × List Ev :=
  let sourcePath := homeDir ++ item
  let destPath := dotfilesRepoDir ++ item
  match backupPhase fs sourcePath destPath isSync with
  | (fs1, evs1) =>
    match symlinkPhase fs1 sourcePath destPath with
    | (fs2, evs2) => (fs2, evs1 ++ evs2)

def copiedMsg : String := "Copied %s to repository.\n"
def updatedMsg : String := "Updated %s in repository.\n"
def copyErrMsg : String := "Error copying %s: %v"

/-- The copy-and-delete half of processFile from src/main.go lines 37-60:
identical to backupPhase except that every non-link source, directory or
not, goes through copyFile and os.Remove. -/
def fileBackupPhase (fs : Node) (sourcePath destPath : Path)
    (isSync : Bool) : Node × List Ev :=
  match lookup fs sourcePath with
  | some fi =>
    match fi with
    | Node.symlink _ => (fs, [Ev.printed skipMsg])
    | _ =>
      match copyFile fs sourcePath destPath with
      | (fs1, ok) =>
        let evs :=
          if ok then
            [Ev.printed (if isSync then updatedMsg else copiedMsg)]
          else [Ev.logged copyErrMsg]
        match osRemove fs1 sourcePath with
        | some fs2 => (fs2, evs)
        | none => (fs1, evs ++ [Ev.logged removeFileErrMsg])
  | none => (fs, [Ev.logged missingMsg])

/-- processFile from src/main.go lines 32-74. -/
def processFile (fs : Node) (item homeDir dotfilesRepoDir : Path)
    (isSync : Bool) : Node × List Ev :=
  let sourcePath := homeDir ++ item
  let destPath := dotfilesRepoDir ++ item
  match fileBackupPhase fs sourcePath destPath isSync with
  | (fs1, evs1) =>
    match symlinkPhase fs1 sourcePath destPath with
    | (fs2, evs2) => (fs2, evs1 ++ evs2)

/-- The per-item loop shared by initCmd and syncCmd. -/
def runItems (fs : Node) (items : List Path)
    (homeDir dotfilesRepoDir : Path) (isSync : Bool) : Node × List Ev :=
  match items with
  | [] => (fs, [])
  | item :: rest =>
    match processPath fs item homeDir dotfilesRepoDir isSync with
    | (fs1, evs1) =>
      match runItems fs1 rest homeDir dotfilesRepoDir isSync with
      | (fs2, evs2) => (fs2, evs1 ++ evs2)

def dotfilesDirName : String := "dotfiles"

/-- initCmd from src/unnamed/part_000 lines 155-183: MkdirAll the
dotfiles subdirectory, then run the reconciler with isSync set to false.
The trailing git add, commit and push touch no modelled state. -/
def initCmd (fs : Node) (items : List Path) (homeDir repoDir : Path) :
    Option (Node × List Ev) :=
  let dotfilesRepoDir := repoDir ++ [dotfilesDirName]
  match mkdirAll fs dotfilesRepoDir 0o755 with
  | none => none
  | some fs1 => some (runItems fs1 items homeDir dotfilesRepoDir false)

def syncErrMsg : String :=
  "dotfiles repository directory does not exist. Run gotfiles init first"

/-- syncCmd from src/unnamed/part_000 lines 185-213: fail fast when the
dotfiles subdirectory is missing, else run the reconciler with isSync set
to true.  The error message elides the two quote characters of the source
text. -/
def syncCmd (fs : Node) (items : List Path) (homeDir repoDir : Path) :
    Except String (Node × List Ev) :=
  let dotfilesRepoDir := repoDir ++ [dotfilesDirName]
  match stat fs dotfilesRepoDir with
  | none => Except.error syncErrMsg
  | some _ => Except.ok (runItems fs items homeDir dotfilesRepoDir true)

/-- Boolean path-prefix test. -/
def pfx : Path → Path → Bool
| [], _ => true
| _ :: _, [] => false
| a :: as, b :: bs => if a = b then pfx as bs else false

/-- Two paths are apart when neither is a prefix of the other, so the
subtrees they address are disjoint. -/
def apart (p q : Path) : Bool := !pfx p q && !pfx q p

mutual

/-- A tree is well formed when every directory has pairwise distinct child
names, as on a real filesystem. -/
def wfN : Node → Bool
| Node.file _ _ => true
| Node.symlink _ => true
| Node.dir _ cs => nodupKeys cs && wfL cs

def wfL : List (String × Node) → Bool
| [] => true
| (_, c) :: rest => wfN c && wfL rest

end

mutual

/-- A tree that contains no symbolic links. -/
def sfN : Node → Bool
| Node.file _ _ => true
| Node.symlink _ => false
| Node.dir _ cs => sfL cs

def sfL : List (String × Node) → Bool
| [] => true
| (_, c) :: rest => sfN c && sfL rest

end

mutual

/-- The tree a successful recursive copy produces: directory permissions
are preserved, files keep their bytes but get the default 0o666 bits os.
Create uses. -/
def copyShape : Node → Node
| Node.file c _ => Node.file c 0o666
| Node.dir m cs => Node.dir m (shapeL cs)
| Node.symlink t => Node.symlink t

def shapeL : List (String × Node) → List (String × Node)
| [] => []
| (n, c) :: rest => (n, copyShape c) :: shapeL rest

end

mutual

def nsize : Node → Nat
| Node.file _ _ => 1
| Node.symlink _ => 1
| Node.dir _ cs => 1 + lsizeN cs

def lsizeN : List (String × Node) → Nat
| [] => 0
| (_, c) :: rest => 1 + nsize c + lsizeN rest

end

def Node.isLink : Node → Bool
| Node.symlink _ => true
| _ => false

def Node.isDir : Node → Bool
| Node.dir _ _ => true
| _ => false

/-- Whether the entry an Lstat of the path finds is a directory. -/
def isDirAt (fs : Node) (p : Path) : Bool :=
  match lookup fs p with
  | some (Node.dir _ _) => true
  | _ => false

/-! Concrete filesystem trees used to evaluate the definitions. -/

def fsHomeFile : Node :=
  Node.dir 0o755
    [("home", Node.dir 0o755 [(".bashrc", Node.file [1, 2, 3] 0o644)]),
     ("repo", Node.dir 0o755 [("dotfiles", Node.dir 0o755 [])])]

def fsRepoBlocked : Node :=
  Node.dir 0o755
    [("home", Node.dir 0o755
        [(".bashrc", Node.file [7] 0o600),
         ("cfg", Node.dir 0o700 [("a", Node.file [1] 0o600)])]),
     ("repo", Node.file [] 0o644)]

def fsRepoOnly : Node :=
  Node.dir 0o755
    [("home", Node.dir 0o755 []),
     ("repo", Node.dir 0o755
        [("dotfiles", Node.dir 0o755
           [(".vimrc", Node.file [9] 0o666)])])]

def fsMigrated : Node :=
  Node.dir 0o755
    [("home", Node.dir 0o755
        [(".bashrc", Node.symlink ["repo", "dotfiles", ".bashrc"])]),
     ("repo", Node.dir 0o755
        [("dotfiles", Node.dir 0o755
           [(".bashrc", Node.file [1] 0o666)])])]

def fsHomeTree : Node :=
  Node.dir 0o755
    [("home", Node.dir 0o755
        [("cfg", Node.dir 0o700
           [("sub", Node.dir 0o711 [("x", Node.file [4, 5] 0o640)]),
            ("y", Node.file [6] 0o600)])]),
     ("repo", Node.dir 0o755 [("dotfiles", Node.dir 0o755 [])])]

def fsNoRepo : Node :=
  Node.dir 0o755 [("home", Node.dir 0o755 [])]

/-! Lemmas about the child-list operations. -/

theorem findChild_setChild_self (cs : List (String × Node)) (n : String)
    (v : Node) : findChild (setChild cs n v) n = some v := by
  induction cs with
  | nil => simp [setChild, findChild]
  | cons hd tl ih =>
    obtain ⟨m, w⟩ := hd
    by_cases h : m = n
    · simp [setChild, findChild, h]
    · simp [setChild, findChild, h, ih]

theorem findChild_setChild_ne (cs : List (String × Node)) {n name : String}
    (v : Node) (h : n ≠ name) :
    findChild (setChild cs n v) name = findChild cs name := by
  induction cs with
  | nil => simp [setChild, findChild, h]
  | cons hd tl ih =>
    obtain ⟨m, w⟩ := hd
    by_cases hm : m = n
    · subst hm; simp [setChild, findChild, h, ih]
    · by_cases hm2 : m = name
      · subst hm2; simp [setChild, findChild, hm, Ne.symm h]
      · simp [setChild, findChild, hm, hm2, ih]

theorem setChild_setChild (cs : List (String × Node)) (n : String)
    (u v : Node) : setChild (setChild cs n u) n v = setChild cs n v := by
  induction cs with
  | nil => simp [setChild]
  | cons hd tl ih =>
    obtain ⟨m, w⟩ := hd
    by_cases h : m = n
    · simp [setChild, h]
    · simp [setChild, h, ih]

theorem setChild_of_findChild (cs : List (String × Node)) {n : String}
    {c : Node} (h : findChild cs n = some c) : setChild cs n c = cs := by
  induction cs with
  | nil => simp [findChild] at h
  | cons hd tl ih =>
    obtain ⟨m, w⟩ := hd
    by_cases hm : m = n
    · simp [findChild, hm] at h
      simp [setChild, hm, h]
    · simp [findChild, hm] at h
      simp [setChild, hm, ih h]

theorem hasKey_eq_isSome (cs : List (String × Node)) (n : String) :
    hasKey cs n = (findChild cs n).isSome := by
  induction cs with
  | nil => simp [hasKey, findChild]
  | cons hd tl ih =>
    obtain ⟨m, w⟩ := hd
    by_cases h : m = n
    · simp [hasKey, findChild, h]
    · simp [hasKey, findChild, h, ih]

theorem findChild_eq_none_of_hasKey (cs : List (String × Node)) {n : String}
    (h : hasKey cs n = false) : findChild cs n = none := by
  rw [hasKey_eq_isSome] at h
  exact Option.not_isSome_iff_eq_none.mp (by simp [h])

theorem setChild_append (cs : List (String × Node)) {n : String} (v : Node)
    (h : hasKey cs n = false) : setChild cs n v = cs ++ [(n, v)] := by
  induction cs with
  | nil => simp [setChild]
  | cons hd tl ih =>
    obtain ⟨m, w⟩ := hd
    by_cases hm : m = n
    · simp [hasKey, hm] at h
    · simp [hasKey, hm] at h
      simp [setChild, hm, ih h]

theorem findChild_delChild_self (cs : List (String × Node)) {n : String}
    (h : nodupKeys cs = true) : findChild (delChild cs n) n = none := by
  induction cs with
  | nil => simp [delChild, findChild]
  | cons hd tl ih =>
    obtain ⟨m, w⟩ := hd
    simp only [nodupKeys, Bool.and_eq_true, Bool.not_eq_true'] at h
    by_cases hm : m = n
    · subst hm
      simpa [delChild] using findChild_eq_none_of_hasKey tl h.1
    · simp [delChild, findChild, hm, ih h.2]

theorem findChild_delChild_ne (cs : List (String × Node)) {n name : String}
    (h : n ≠ name) : findChild (delChild cs n) name = findChild cs name := by
  induction cs with
  | nil => simp [delChild]
  | cons hd tl ih =>
    obtain ⟨m, w⟩ := hd
    by_cases hm : m = n
    · subst hm; simp [delChild, findChild, h, ih]
    · by_cases hm2 : m = name
      · subst hm2; simp [delChild, findChild, hm, Ne.symm h]
      · simp [delChild, findChild, hm, hm2, ih]

theorem hasKey_setChild_ne (cs : List (String × Node)) {n m : String}
    (v : Node) (h : n ≠ m) : hasKey (setChild cs n v) m = hasKey cs m := by
  rw [hasKey_eq_isSome, hasKey_eq_isSome, findChild_setChild_ne cs v h]

theorem hasKey_delChild_le (cs : List (String × Node)) {n m : String}
    (h : hasKey (delChild cs n) m = true) : hasKey cs m = true := by
  induction cs with
  | nil => simpa [delChild] using h
  | cons hd tl ih =>
    obtain ⟨k, w⟩ := hd
    by_cases hk : k = n
    · subst hk
      simp only [delChild, if_pos] at h
      by_cases hm : k = m
      · simp [hasKey, hm]
      · simp [hasKey, hm, h]
    · simp only [delChild, if_neg hk] at h
      by_cases hm : k = m
      · simp [hasKey, hm]
      · simp only [hasKey, if_neg hm] at h ⊢
        exact ih h

theorem nodupKeys_setChild (cs : List (String × Node)) (n : String)
    (v : Node) (h : nodupKeys cs = true) :
    nodupKeys (setChild cs n v) = true := by
  induction cs with
  | nil => simp [setChild, nodupKeys, hasKey]
  | cons hd tl ih =>
    obtain ⟨m, w⟩ := hd
    simp only [nodupKeys, Bool.and_eq_true, Bool.not_eq_true'] at h
    by_cases hm : m = n
    · subst hm; simp [setChild, nodupKeys, h.1, h.2]
    · have : hasKey (setChild tl n v) m = hasKey tl m :=
        hasKey_setChild_ne tl v (fun e => hm e.symm)
      simp [setChild, hm, nodupKeys, this, h.1, ih h.2]

theorem nodupKeys_delChild (cs : List (String × Node)) (n : String)
    (h : nodupKeys cs = true) : nodupKeys (delChild cs n) = true := by
  induction cs with
  | nil => simp [delChild, nodupKeys]
  | cons hd tl ih =>
    obtain ⟨m, w⟩ := hd
    simp only [nodupKeys, Bool.and_eq_true, Bool.not_eq_true'] at h
    by_cases hm : m = n
    · simp [delChild, hm, h.2]
    · have : hasKey (delChild tl n) m = false := by
        cases hdel : hasKey (delChild tl n) m with
        | false => rfl
        | true => rw [hasKey_delChild_le tl hdel] at h; exact absurd h.1 (by simp)
      simp [delChild, hm, nodupKeys, this, h.1, ih h.2]

theorem findChild_append_left (l1 l2 : List (String × Node)) {n : String}
    {c : Node} (h : findChild l1 n = some c) :
    findChild (l1 ++ l2) n = some c := by
  induction l1 with
  | nil => simp [findChild] at h
  | cons hd tl ih =>
    obtain ⟨m, w⟩ := hd
    by_cases hm : m = n
    · simp [findChild, hm] at h ⊢; exact h
    · simp only [findChild, if_neg hm] at h
      simpa [findChild, hm] using ih h

theorem findChild_append_right (l1 l2 : List (String × Node)) {n : String}
    (h : findChild l1 n = none) :
    findChild (l1 ++ l2) n = findChild l2 n := by
  induction l1 with
  | nil => simp
  | cons hd tl ih =>
    obtain ⟨m, w⟩ := hd
    by_cases hm : m = n
    · simp [findChild, hm] at h
    · simp only [findChild, if_neg hm] at h
      simpa [findChild, hm] using ih h

/-! Lemmas about the well-formedness and symlink-freeness predicates. -/

theorem wfN_dir {m : Nat} {cs : List (String × Node)}
    (h : wfN (Node.dir m cs) = true) :
    nodupKeys cs = true ∧ wfL cs = true := by
  simpa [wfN, Bool.and_eq_true] using h

theorem wfL_find {cs : List (String × Node)} {n : String} {c : Node}
    (hwf : wfL cs = true) (h : findChild cs n = some c) : wfN c = true := by
  induction cs with
  | nil => simp [findChild] at h
  | cons hd tl ih =>
    obtain ⟨m, w⟩ := hd
    simp only [wfL, Bool.and_eq_true] at hwf
    by_cases hm : m = n
    · simp [findChild, hm] at h; exact h ▸ hwf.1
    · simp only [findChild, if_neg hm] at h
      exact ih hwf.2 h

theorem wfL_setChild {cs : List (String × Node)} {n : String} {v : Node}
    (hwf : wfL cs = true) (hv : wfN v = true) :
    wfL (setChild cs n v) = true := by
  induction cs with
  | nil => simp [setChild, wfL, hv]
  | cons hd tl ih =>
    obtain ⟨m, w⟩ := hd
    simp only [wfL, Bool.and_eq_true] at hwf
    by_cases hm : m = n
    · simp [setChild, hm, wfL, hv, hwf.2]
    · simp [setChild, hm, wfL, hwf.1, ih hwf.2]

theorem wfL_delChild {cs : List (String × Node)} {n : String}
    (hwf : wfL cs = true) : wfL (delChild cs n) = true := by
  induction cs with
  | nil => simp [delChild, wfL]
  | cons hd tl ih =>
    obtain ⟨m, w⟩ := hd
    simp only [wfL, Bool.and_eq_true] at hwf
    by_cases hm : m = n
    · simp [delChild, hm, hwf.2]
    · simp [delChild, hm, wfL, hwf.1, ih hwf.2]

theorem sfL_find {cs : List (String × Node)} {n : String} {c : Node}
    (hsf : sfL cs = true) (h : findChild cs n = some c) : sfN c = true := by
  induction cs with
  | nil => simp [findChild] at h
  | cons hd tl ih =>
    obtain ⟨m, w⟩ := hd
    simp only [sfL, Bool.and_eq_true] at hsf
    by_cases hm : m = n
    · simp [findChild, hm] at h; exact h ▸ hsf.1
    · simp only [findChild, if_neg hm] at h
      exact ih hsf.2 h

/-! Lemmas about the path-prefix test. -/

theorem pfx_cons_cons (a : String) (p q : Path) :
    pfx (a :: p) (a :: q) = pfx p q := by
  simp [pfx]

theorem pfx_refl (p : Path) : pfx p p = true := by
  induction p with
  | nil => rfl
  | cons a as ih => simp [pfx, ih]

theorem pfx_self_append (p r : Path) : pfx p (p ++ r) = true := by
  induction p with
  | nil => rfl
  | cons a as ih => simp [pfx, ih]

theorem pfx_append_right {p q : Path} (r : Path) (h : pfx p q = true) :
    pfx p (q ++ r) = true := by
  induction p generalizing q with
  | nil => rfl
  | cons a as ih =>
    cases q with
    | nil => simp [pfx] at h
    | cons b bs =>
      by_cases hab : a = b
      · subst hab
        simp only [pfx, if_pos rfl] at h ⊢
        exact ih h
      · simp [pfx, hab] at h

theorem pfx_length {p q : Path} (h : pfx p q = true) :
    p.length ≤ q.length := by
  induction p generalizing q with
  | nil => simp
  | cons a as ih =>
    cases q with
    | nil => simp [pfx] at h
    | cons b bs =>
      by_cases hab : a = b
      · simp only [pfx, if_pos hab] at h
        simpa using ih h
      · simp [pfx, hab] at h

theorem pfx_iff_append {p q : Path} : pfx p q = true ↔ ∃ r, q = p ++ r := by
  constructor
  · intro h
    induction p generalizing q with
    | nil => exact ⟨q, rfl⟩
    | cons a as ih =>
      cases q with
      | nil => simp [pfx] at h
      | cons b bs =>
        by_cases hab : a = b
        · subst hab
          simp only [pfx, if_pos rfl] at h
          obtain ⟨r, hr⟩ := ih h
          exact ⟨r, by simp [hr]⟩
        · simp [pfx, hab] at h
  · rintro ⟨r, rfl⟩
    exact pfx_self_append p r

theorem pfx_concat_self (q : Path) (n : String) : pfx (q ++ [n]) q = false := by
  cases h : pfx (q ++ [n]) q with
  | false => rfl
  | true =>
    have := pfx_length h
    simp at this

theorem pfx_snoc_cases {q p : Path} {n : String}
    (h : pfx q (p ++ [n]) = true) : pfx q p = true ∨ q = p ++ [n] := by
  obtain ⟨r, hr⟩ := pfx_iff_append.mp h
  cases r using List.reverseRecOn with
  | nil => right; simpa using hr.symm
  | append_singleton r' a _ =>
    left
    have : p ++ [n] = q ++ r' ++ [a] := by simpa [List.append_assoc] using hr
    have hpq : p = q ++ r' := by
      have := congrArg List.dropLast this
      simpa [List.dropLast_concat] using this
    rw [hpq]
    exact pfx_self_append q r'

theorem apart_symm (p q : Path) : apart p q = apart q p := by
  simp [apart, Bool.and_comm]

theorem apart_pfx_left {p q : Path} (h : apart p q = true) :
    pfx p q = false := by
  simp only [apart, Bool.and_eq_true, Bool.not_eq_true'] at h
  exact h.1

theorem apart_pfx_right {p q : Path} (h : apart p q = true) :
    pfx q p = false := by
  simp only [apart, Bool.and_eq_true, Bool.not_eq_true'] at h
  exact h.2

theorem apart_of_pfx {p q : Path} (h1 : pfx p q = false)
    (h2 : pfx q p = false) : apart p q = true := by
  simp [apart, h1, h2]

theorem apart_snoc_left {p q : Path} (a : String) (h : apart p q = true) :
    apart (p ++ [a]) q = true := by
  apply apart_of_pfx
  · cases hc : pfx (p ++ [a]) q with
    | false => rfl
    | true =>
      obtain ⟨r, hr⟩ := pfx_iff_append.mp hc
      have : pfx p q = true := by
        rw [hr, List.append_assoc]
        exact pfx_self_append p _
      rw [apart_pfx_left h] at this
      exact absurd this (by simp)
  · cases hc : pfx q (p ++ [a]) with
    | false => rfl
    | true =>
      rcases pfx_snoc_cases hc with hq | hq
      · rw [apart_pfx_right h] at hq
        exact absurd hq (by simp)
      · have : pfx p q = true := by rw [hq]; exact pfx_self_append p _
        rw [apart_pfx_left h] at this
        exact absurd this (by simp)

theorem apart_snoc {p q : Path} (a b : String) (h : apart p q = true) :
    apart (p ++ [a]) (q ++ [b]) = true := by
  have h1 := apart_snoc_left a h
  rw [apart_symm] at h1
  have h2 := apart_snoc_left b h1
  rw [apart_symm] at h2
  exact h2

theorem pfx_not_of_append_right {p q : Path} (n : String)
    (h : pfx p (q ++ [n]) = false) : pfx p q = false := by
  cases hc : pfx p q with
  | false => rfl
  | true => rw [pfx_append_right [n] hc] at h; exact h

/-! Core lemmas about lookup and setAt. -/

theorem lookup_append (fs : Node) (p q : Path) :
    lookup fs (p ++ q) = (lookup fs p).bind (fun n => lookup n q) := by
  induction p generalizing fs with
  | nil => simp [lookup]
  | cons a as ih =>
    cases fs with
    | dir m cs =>
      simp only [List.cons_append, lookup]
      cases findChild cs a with
      | none => simp
      | some c => simpa using ih c
    | file c pm => simp [lookup]
    | symlink t => simp [lookup]

theorem lookup_setAt_append {fs fs' v : Node} {p : Path}
    (h : setAt fs p v = some fs') (q : Path) :
    lookup fs' (p ++ q) = lookup v q := by
  induction p generalizing fs fs' with
  | nil => cases fs <;> simp [setAt] at h
  | cons a as ih =>
    cases fs with
    | file c pm => simp [setAt] at h
    | symlink t => simp [setAt] at h
    | dir m cs =>
      cases as with
      | nil =>
        simp only [setAt] at h
        injection h with h
        subst h
        simp [lookup, findChild_setChild_self]
      | cons b bs =>
        simp only [setAt] at h
        cases hfc : findChild cs a with
        | none => simp only [hfc] at h; exact absurd h (by simp)
        | some c =>
          simp only [hfc] at h
          cases hsa : setAt c (b :: bs) v with
          | none => simp only [hsa] at h; exact absurd h (by simp)
          | some c2 =>
            simp only [hsa] at h
            injection h with h
            subst h
            simp only [List.cons_append, lookup, findChild_setChild_self]
            exact ih hsa

theorem lookup_setAt_self {fs fs' v : Node} {p : Path}
    (h : setAt fs p v = some fs') : lookup fs' p = some v := by
  have := lookup_setAt_append h []
  simpa [lookup] using this

theorem lookup_setAt_frame {fs fs' v : Node} {p q : Path}
    (h : setAt fs p v = some fs') (h1 : pfx p q = false)
    (h2 : pfx q p = false) : lookup fs' q = lookup fs q := by
  induction p generalizing fs fs' q with
  | nil => cases fs <;> simp [setAt] at h
  | cons a as ih =>
    cases q with
    | nil => simp [pfx] at h2
    | cons b qs =>
      cases fs with
      | file c pm => simp [setAt] at h
      | symlink t => simp [setAt] at h
      | dir m cs =>
        by_cases hab : a = b
        · subst hab
          rw [pfx_cons_cons] at h1 h2
          cases as with
          | nil => simp [pfx] at h1
          | cons c1 cs1 =>
            simp only [setAt] at h
            cases hfc : findChild cs a with
            | none => simp only [hfc] at h; exact absurd h (by simp)
            | some c =>
              simp only [hfc] at h
              cases hsa : setAt c (c1 :: cs1) v with
              | none => simp only [hsa] at h; exact absurd h (by simp)
              | some c2 =>
                simp only [hsa] at h
                injection h with h
                subst h
                simp only [lookup, findChild_setChild_self, hfc]
                exact ih hsa h1 h2
        · cases as with
          | nil =>
            simp only [setAt] at h
            injection h with h
            subst h
            simp only [lookup, findChild_setChild_ne cs v hab]
          | cons c1 cs1 =>
            simp only [setAt] at h
            cases hfc : findChild cs a with
            | none => simp only [hfc] at h; exact absurd h (by simp)
            | some c =>
              simp only [hfc] at h
              cases hsa : setAt c (c1 :: cs1) v with
              | none => simp only [hsa] at h; exact absurd h (by simp)
              | some c2 =>
                simp only [hsa] at h
                injection h with h
                subst h
                simp only [lookup, findChild_setChild_ne cs c2 hab]

theorem setAt_dir_shape {m : Nat} {cs : List (String × Node)} {r : Path}
    {v n2 : Node} (h : setAt (Node.dir m cs) r v = some n2) (hr : r ≠ []) :
    ∃ cs2, n2 = Node.dir m cs2 := by
  cases r with
  | nil => exact absurd rfl hr
  | cons a as =>
    cases as with
    | nil =>
      simp only [setAt] at h
      exact ⟨setChild cs a v, by injection h with h; exact h.symm⟩
    | cons b bs =>
      simp only [setAt] at h
      cases hfc : findChild cs a with
      | none => simp only [hfc] at h; exact absurd h (by simp)
      | some c =>
        simp only [hfc] at h
        cases hsa : setAt c (b :: bs) v with
        | none => simp only [hsa] at h; exact absurd h (by simp)
        | some c2 =>
          simp only [hsa] at h
          exact ⟨setChild cs a c2, by injection h with h; exact h.symm⟩

theorem setAt_subtree {fs fs' v n : Node} {q r : Path}
    (h : setAt fs (q ++ r) v = some fs') (hq : lookup fs q = some n)
    (hr : r ≠ []) :
    ∃ n2, setAt n r v = some n2 ∧ lookup fs' q = some n2 := by
  induction q generalizing fs fs' with
  | nil =>
    simp only [lookup] at hq
    injection hq with hq
    subst hq
    exact ⟨fs', by simpa using h, by simp [lookup]⟩
  | cons a qs ih =>
    cases fs with
    | file c pm => simp [lookup] at hq
    | symlink t => simp [lookup] at hq
    | dir m0 cs0 =>
      simp only [lookup] at hq
      cases hfc : findChild cs0 a with
      | none => rw [hfc] at hq; exact absurd hq (by simp)
      | some c =>
        rw [hfc] at hq
        have hcons : ∃ x xs, qs ++ r = x :: xs := by
          cases hqr : qs ++ r with
          | nil =>
            rcases List.append_eq_nil.mp hqr with ⟨_, h2⟩
            exact absurd h2 hr
          | cons x xs => exact ⟨x, xs, rfl⟩
        obtain ⟨x, xs, hqr⟩ := hcons
        rw [List.cons_append, hqr] at h
        simp only [setAt] at h
        simp only [hfc] at h
        cases hsa : setAt c (x :: xs) v with
        | none => simp only [hsa] at h; exact absurd h (by simp)
        | some c2 =>
          simp only [hsa] at h
          injection h with h
          subst h
          rw [← hqr] at hsa
          obtain ⟨n2, hset, hlook⟩ := ih hsa hq
          refine ⟨n2, hset, ?_⟩
          simpa [lookup, findChild_setChild_self] using hlook

theorem lookup_setAt_dir {fs fs' v : Node} {p q : Path} {m : Nat}
    {cs : List (String × Node)} (h : setAt fs p v = some fs')
    (hpq : pfx p q = false) (hq : lookup fs q = some (Node.dir m cs)) :
    ∃ cs2, lookup fs' q = some (Node.dir m cs2) := by
  cases hqp : pfx q p with
  | false => exact ⟨cs, by rw [lookup_setAt_frame h hpq hqp]; exact hq⟩
  | true =>
    obtain ⟨r, rfl⟩ := pfx_iff_append.mp hqp
    have hr : r ≠ [] := by
      rintro rfl
      rw [List.append_nil] at hpq
      rw [pfx_refl] at hpq
      exact absurd hpq (by simp)
    obtain ⟨n2, hn2, hl⟩ := setAt_subtree h hq hr
    obtain ⟨cs2, rfl⟩ := setAt_dir_shape hn2 hr
    exact ⟨cs2, hl⟩

theorem setAt_concat_isSome {fs : Node} {q : Path} {m : Nat}
    {cs : List (String × Node)} (hq : lookup fs q = some (Node.dir m cs))
    (n : String) (v : Node) : ∃ fs', setAt fs (q ++ [n]) v = some fs' := by
  induction q generalizing fs with
  | nil =>
    simp only [lookup] at hq
    injection hq with hq
    subst hq
    exact ⟨Node.dir m (setChild cs n v), by simp [setAt]⟩
  | cons a qs ih =>
    cases fs with
    | file c pm => simp [lookup] at hq
    | symlink t => simp [lookup] at hq
    | dir m0 cs0 =>
      simp only [lookup] at hq
      cases hfc : findChild cs0 a with
      | none => rw [hfc] at hq; exact absurd hq (by simp)
      | some c =>
        rw [hfc] at hq
        obtain ⟨c2, hc2⟩ := ih hq
        refine ⟨Node.dir m0 (setChild cs0 a c2), ?_⟩
        have hcons : ∃ x xs, qs ++ [n] = x :: xs := by
          cases qs with
          | nil => exact ⟨n, [], rfl⟩
          | cons y ys => exact ⟨y, ys ++ [n], rfl⟩
        obtain ⟨x, xs, hqr⟩ := hcons
        rw [List.cons_append, hqr]
        simp only [setAt]
        simp only [hfc]
        rw [← hqr]
        simp only [hc2]

theorem setAt_setAt {fs fs1 u : Node} {p : Path} (v : Node)
    (h : setAt fs p u = some fs1) : setAt fs1 p v = setAt fs p v := by
  induction p generalizing fs fs1 with
  | nil => cases fs <;> simp [setAt] at h
  | cons a as ih =>
    cases fs with
    | file c pm => simp [setAt] at h
    | symlink t => simp [setAt] at h
    | dir m cs =>
      cases as with
      | nil =>
        simp only [setAt] at h
        injection h with h
        subst h
        simp [setAt, setChild_setChild]
      | cons b bs =>
        simp only [setAt] at h
        cases hfc : findChild cs a with
        | none => simp only [hfc] at h; exact absurd h (by simp)
        | some c =>
          simp only [hfc] at h
          cases hsa : setAt c (b :: bs) u with
          | none => simp only [hsa] at h; exact absurd h (by simp)
          | some c2 =>
            simp only [hsa] at h
            injection h with h
            subst h
            simp only [setAt, findChild_setChild_self, hfc]
            rw [ih hsa]
            cases setAt c (b :: bs) v with
            | none => rfl
            | some d => simp [setChild_setChild]

theorem setAt_compose {fs fs1 A : Node} {p q : Path} (v : Node)
    (h : setAt fs p A = some fs1) (hq : q ≠ []) :
    setAt fs1 (p ++ q) v = (setAt A q v).bind (fun A2 => setAt fs p A2) := by
  induction p generalizing fs fs1 with
  | nil => cases fs <;> simp [setAt] at h
  | cons a as ih =>
    cases fs with
    | file c pm => simp [setAt] at h
    | symlink t => simp [setAt] at h
    | dir m cs =>
      cases as with
      | nil =>
        simp only [setAt] at h
        injection h with h
        subst h
        cases q with
        | nil => exact absurd rfl hq
        | cons x xs =>
          simp only [List.cons_append, List.nil_append, setAt,
            findChild_setChild_self]
          cases hsa : setAt A (x :: xs) v with
          | none => simp [hsa]
          | some A2 => simp [hsa, setAt, setChild_setChild]
      | cons b bs =>
        simp only [setAt] at h
        cases hfc : findChild cs a with
        | none => simp only [hfc] at h; exact absurd h (by simp)
        | some c =>
          simp only [hfc] at h
          cases hsa : setAt c (b :: bs) A with
          | none => simp only [hsa] at h; exact absurd h (by simp)
          | some c2 =>
            simp only [hsa] at h
            injection h with h
            subst h
            have ihe := ih hsa
            simp only [List.cons_append] at ihe ⊢
            simp only [setAt, findChild_setChild_self, hfc]
            rw [ihe]
            cases hA2 : setAt A q v with
            | none => simp [hA2]
            | some A2 =>
              simp only [hA2, Option.some_bind]
              cases hsc : setAt c (b :: bs) A2 with
              | none => simp [hsc]
              | some d => simp [hsc, setChild_setChild]

/-! Lemmas about removeAt and removeAll. -/

theorem wfN_lookup {fs v : Node} {p : Path} (hwf : wfN fs = true)
    (h : lookup fs p = some v) : wfN v = true := by
  induction p generalizing fs with
  | nil => simp only [lookup] at h; injection h with h; subst h; exact hwf
  | cons a as ih =>
    cases fs with
    | file c pm => simp [lookup] at h
    | symlink t => simp [lookup] at h
    | dir m cs =>
      simp only [lookup] at h
      cases hfc : findChild cs a with
      | none => rw [hfc] at h; exact absurd h (by simp)
      | some c =>
        rw [hfc] at h
        exact ih (wfL_find (wfN_dir hwf).2 hfc) h

theorem removeAt_isSome {fs v : Node} {p : Path}
    (h : lookup fs p = some v) (hp : p ≠ []) :
    ∃ fs', removeAt fs p = some fs' := by
  induction p generalizing fs with
  | nil => exact absurd rfl hp
  | cons a as ih =>
    cases fs with
    | file c pm => simp [lookup] at h
    | symlink t => simp [lookup] at h
    | dir m cs =>
      simp only [lookup] at h
      cases hfc : findChild cs a with
      | none => rw [hfc] at h; exact absurd h (by simp)
      | some c =>
        rw [hfc] at h
        cases as with
        | nil => exact ⟨Node.dir m (delChild cs a), by simp [removeAt]⟩
        | cons b bs =>
          obtain ⟨c2, hc2⟩ := ih h (by simp)
          refine ⟨Node.dir m (setChild cs a c2), ?_⟩
          simp only [removeAt, hfc, hc2]

theorem lookup_removeAt_self {fs fs' : Node} {p : Path}
    (hwf : wfN fs = true) (h : removeAt fs p = some fs') :
    lookup fs' p = none := by
  induction p generalizing fs fs' with
  | nil => cases fs <;> simp [removeAt] at h
  | cons a as ih =>
    cases fs with
    | file c pm => simp [removeAt] at h
    | symlink t => simp [removeAt] at h
    | dir m cs =>
      cases as with
      | nil =>
        simp only [removeAt] at h
        injection h with h
        subst h
        simp [lookup, findChild_delChild_self cs (wfN_dir hwf).1]
      | cons b bs =>
        simp only [removeAt] at h
        cases hfc : findChild cs a with
        | none => simp only [hfc] at h; exact absurd h (by simp)
        | some c =>
          simp only [hfc] at h
          cases hra : removeAt c (b :: bs) with
          | none => simp only [hra] at h; exact absurd h (by simp)
          | some c2 =>
            simp only [hra] at h
            injection h with h
            subst h
            simp only [lookup, findChild_setChild_self]
            exact ih (wfL_find (wfN_dir hwf).2 hfc) hra

theorem lookup_removeAt_frame {fs fs' : Node} {p q : Path}
    (h : removeAt fs p = some fs') (h1 : pfx p q = false)
    (h2 : pfx q p = false) : lookup fs' q = lookup fs q := by
  induction p generalizing fs fs' q with
  | nil => cases fs <;> simp [removeAt] at h
  | cons a as ih =>
    cases q with
    | nil => simp [pfx] at h2
    | cons b qs =>
      cases fs with
      | file c pm => simp [removeAt] at h
      | symlink t => simp [removeAt] at h
      | dir m cs =>
        by_cases hab : a = b
        · subst hab
          rw [pfx_cons_cons] at h1 h2
          cases as with
          | nil => simp [pfx] at h1
          | cons c1 cs1 =>
            simp only [removeAt] at h
            cases hfc : findChild cs a with
            | none => simp only [hfc] at h; exact absurd h (by simp)
            | some c =>
              simp only [hfc] at h
              cases hra : removeAt c (c1 :: cs1) with
              | none => simp only [hra] at h; exact absurd h (by simp)
              | some c2 =>
                simp only [hra] at h
                injection h with h
                subst h
                simp only [lookup, findChild_setChild_self, hfc]
                exact ih hra h1 h2
        · cases as with
          | nil =>
            simp only [removeAt] at h
            injection h with h
            subst h
            simp only [lookup, findChild_delChild_ne cs hab]
          | cons c1 cs1 =>
            simp only [removeAt] at h
            cases hfc : findChild cs a with
            | none => simp only [hfc] at h; exact absurd h (by simp)
            | some c =>
              simp only [hfc] at h
              cases hra : removeAt c (c1 :: cs1) with
              | none => simp only [hra] at h; exact absurd h (by simp)
              | some c2 =>
                simp only [hra] at h
                injection h with h
                subst h
                simp only [lookup, findChild_setChild_ne cs c2 hab]

theorem removeAt_dir_shape {m : Nat} {cs : List (String × Node)} {r : Path}
    {n2 : Node} (h : removeAt (Node.dir m cs) r = some n2) (hr : r ≠ []) :
    ∃ cs2, n2 = Node.dir m cs2 := by
  cases r with
  | nil => exact absurd rfl hr
  | cons a as =>
    cases as with
    | nil =>
      simp only [removeAt] at h
      exact ⟨delChild cs a, by injection h with h; exact h.symm⟩
    | cons b bs =>
      simp only [removeAt] at h
      cases hfc : findChild cs a with
      | none => simp only [hfc] at h; exact absurd h (by simp)
      | some c =>
        simp only [hfc] at h
        cases hra : removeAt c (b :: bs) with
        | none => simp only [hra] at h; exact absurd h (by simp)
        | some c2 =>
          simp only [hra] at h
          exact ⟨setChild cs a c2, by injection h with h; exact h.symm⟩

theorem removeAt_subtree {fs fs' n : Node} {q r : Path}
    (h : removeAt fs (q ++ r) = some fs') (hq : lookup fs q = some n)
    (hr : r ≠ []) :
    ∃ n2, removeAt n r = some n2 ∧ lookup fs' q = some n2 := by
  induction q generalizing fs fs' with
  | nil =>
    simp only [lookup] at hq
    injection hq with hq
    subst hq
    exact ⟨fs', by simpa using h, by simp [lookup]⟩
  | cons a qs ih =>
    cases fs with
    | file c pm => simp [lookup] at hq
    | symlink t => simp [lookup] at hq
    | dir m0 cs0 =>
      simp only [lookup] at hq
      cases hfc : findChild cs0 a with
      | none => rw [hfc] at hq; exact absurd hq (by simp)
      | some c =>
        rw [hfc] at hq
        have hcons : ∃ x xs, qs ++ r = x :: xs := by
          cases hqr : qs ++ r with
          | nil =>
            rcases List.append_eq_nil.mp hqr with ⟨_, h2⟩
            exact absurd h2 hr
          | cons x xs => exact ⟨x, xs, rfl⟩
        obtain ⟨x, xs, hqr⟩ := hcons
        rw [List.cons_append, hqr] at h
        simp only [removeAt] at h
        simp only [hfc] at h
        cases hra : removeAt c (x :: xs) with
        | none => simp only [hra] at h; exact absurd h (by simp)
        | some c2 =>
          simp only [hra] at h
          injection h with h
          subst h
          rw [← hqr] at hra
          obtain ⟨n2, hrem, hlook⟩ := ih hra hq
          refine ⟨n2, hrem, ?_⟩
          simpa [lookup, findChild_setChild_self] using hlook

theorem lookup_removeAt_dir {fs fs' : Node} {p q : Path} {m : Nat}
    {cs : List (String × Node)} (h : removeAt fs p = some fs')
    (hpq : pfx p q = false) (hq : lookup fs q = some (Node.dir m cs)) :
    ∃ cs2, lookup fs' q = some (Node.dir m cs2) := by
  cases hqp : pfx q p with
  | false => exact ⟨cs, by rw [lookup_removeAt_frame h hpq hqp]; exact hq⟩
  | true =>
    obtain ⟨r, rfl⟩ := pfx_iff_append.mp hqp
    have hr : r ≠ [] := by
      rintro rfl
      rw [List.append_nil] at hpq
      rw [pfx_refl] at hpq
      exact absurd hpq (by simp)
    obtain ⟨n2, hn2, hl⟩ := removeAt_subtree h hq hr
    obtain ⟨cs2, rfl⟩ := removeAt_dir_shape hn2 hr
    exact ⟨cs2, hl⟩

theorem removeAll_nil (fs : Node) : removeAll fs [] = fs := by
  cases fs <;> rfl

theorem lookup_removeAll_self {fs : Node} {p : Path} (hwf : wfN fs = true)
    (hp : p ≠ []) : lookup (removeAll fs p) p = none := by
  induction p generalizing fs with
  | nil => exact absurd rfl hp
  | cons a as ih =>
    cases fs with
    | file c pm => simp [removeAll, lookup]
    | symlink t => simp [removeAll, lookup]
    | dir m cs =>
      cases as with
      | nil =>
        simp only [removeAll]
        simp [lookup, findChild_delChild_self cs (wfN_dir hwf).1]
      | cons b bs =>
        simp only [removeAll]
        cases hfc : findChild cs a with
        | none => simp [lookup, hfc]
        | some c =>
          simp only [lookup, findChild_setChild_self]
          exact ih (wfL_find (wfN_dir hwf).2 hfc) (by simp)

theorem lookup_removeAll_frame {fs : Node} {p q : Path}
    (h1 : pfx p q = false) (h2 : pfx q p = false) :
    lookup (removeAll fs p) q = lookup fs q := by
  induction p generalizing fs q with
  | nil => simp [pfx] at h1
  | cons a as ih =>
    cases q with
    | nil => simp [pfx] at h2
    | cons b qs =>
      cases fs with
      | file c pm => rfl
      | symlink t => rfl
      | dir m cs =>
        by_cases hab : a = b
        · subst hab
          rw [pfx_cons_cons] at h1 h2
          cases as with
          | nil => simp [pfx] at h1
          | cons c1 cs1 =>
            simp only [removeAll]
            cases hfc : findChild cs a with
            | none => rfl
            | some c =>
              simp only [lookup, findChild_setChild_self, hfc]
              exact ih h1 h2
        · cases as with
          | nil =>
            simp only [removeAll]
            simp only [lookup, findChild_delChild_ne cs hab]
          | cons c1 cs1 =>
            simp only [removeAll]
            cases hfc : findChild cs a with
            | none => rfl
            | some c =>
              simp only [lookup,
                findChild_setChild_ne cs (removeAll c (c1 :: cs1)) hab]

theorem removeAll_subtree {fs n : Node} {q r : Path}
    (hq : lookup fs q = some n) (hr : r ≠ []) :
    lookup (removeAll fs (q ++ r)) q = some (removeAll n r) := by
  induction q generalizing fs with
  | nil =>
    simp only [lookup] at hq
    injection hq with hq
    subst hq
    simp [lookup]
  | cons a qs ih =>
    cases fs with
    | file c pm => simp [lookup] at hq
    | symlink t => simp [lookup] at hq
    | dir m0 cs0 =>
      simp only [lookup] at hq
      cases hfc : findChild cs0 a with
      | none => rw [hfc] at hq; exact absurd hq (by simp)
      | some c =>
        rw [hfc] at hq
        have hcons : ∃ x xs, qs ++ r = x :: xs := by
          cases hqr : qs ++ r with
          | nil =>
            rcases List.append_eq_nil.mp hqr with ⟨_, h2⟩
            exact absurd h2 hr
          | cons x xs => exact ⟨x, xs, rfl⟩
        obtain ⟨x, xs, hqr⟩ := hcons
        rw [List.cons_append, hqr]
        simp only [removeAll]
        simp only [hfc]
        simp only [lookup, findChild_setChild_self]
        rw [← hqr]
        exact ih hq

theorem removeAll_dir_shape (m : Nat) (cs : List (String × Node))
    {r : Path} (hr : r ≠ []) :
    ∃ cs2, removeAll (Node.dir m cs) r = Node.dir m cs2 := by
  cases r with
  | nil => exact absurd rfl hr
  | cons a as =>
    cases as with
    | nil => exact ⟨delChild cs a, rfl⟩
    | cons b bs =>
      simp only [removeAll]
      cases hfc : findChild cs a with
      | none => exact ⟨cs, rfl⟩
      | some c => exact ⟨setChild cs a (removeAll c (b :: bs)), rfl⟩

theorem lookup_removeAll_dir {fs : Node} {p q : Path} {m : Nat}
    {cs : List (String × Node)} (hpq : pfx p q = false)
    (hq : lookup fs q = some (Node.dir m cs)) :
    ∃ cs2, lookup (removeAll fs p) q = some (Node.dir m cs2) := by
  cases hqp : pfx q p with
  | false => exact ⟨cs, by rw [lookup_removeAll_frame hpq hqp]; exact hq⟩
  | true =>
    obtain ⟨r, rfl⟩ := pfx_iff_append.mp hqp
    have hr : r ≠ [] := by
      rintro rfl
      rw [List.append_nil] at hpq
      rw [pfx_refl] at hpq
      exact absurd hpq (by simp)
    obtain ⟨cs2, hshape⟩ := removeAll_dir_shape m cs hr
    exact ⟨cs2, by rw [removeAll_subtree hq hr, hshape]⟩

/-! Lemmas about mkdirAll. -/

theorem mkdirAll_of_dir {fs : Node} {p : Path} {m : Nat}
    {cs : List (String × Node)} (h : lookup fs p = some (Node.dir m cs))
    (pm : Nat) : mkdirAll fs p pm = some fs := by
  induction p generalizing fs with
  | nil =>
    simp only [lookup] at h
    injection h with h
    subst h
    rfl
  | cons a as ih =>
    cases fs with
    | file c fp => simp [lookup] at h
    | symlink t => simp [lookup] at h
    | dir m0 cs0 =>
      simp only [lookup] at h
      cases hfc : findChild cs0 a with
      | none => rw [hfc] at h; exact absurd h (by simp)
      | some c =>
        rw [hfc] at h
        simp only [mkdirAll, hfc, ih h]
        rw [setChild_of_findChild cs0 hfc]

theorem mkdirAll_preserve {fs fs' v : Node} {q p : Path} {pm : Nat}
    (h : mkdirAll fs q pm = some fs') (hp : lookup fs p = some v)
    (hv : v.isDir = false) : lookup fs' p = some v := by
  induction q generalizing fs fs' p with
  | nil =>
    cases fs with
    | dir m cs =>
      simp only [mkdirAll] at h
      injection h with h
      subst h
      exact hp
    | file c fp => simp [mkdirAll] at h
    | symlink t => simp [mkdirAll] at h
  | cons a qs ih =>
    cases fs with
    | file c fp => simp [mkdirAll] at h
    | symlink t => simp [mkdirAll] at h
    | dir m cs =>
      simp only [mkdirAll] at h
      cases hfc : findChild cs a with
      | some c =>
        simp only [hfc] at h
        cases hmk : mkdirAll c qs pm with
        | none => simp only [hmk] at h; exact absurd h (by simp)
        | some c2 =>
          simp only [hmk] at h
          injection h with h
          subst h
          cases p with
          | nil =>
            simp only [lookup] at hp
            injection hp with hp
            subst hp
            simp [Node.isDir] at hv
          | cons b ps =>
            by_cases hab : b = a
            · subst hab
              simp only [lookup, hfc] at hp
              simp only [lookup, findChild_setChild_self]
              exact ih hmk hp
            · simp only [lookup] at hp ⊢
              rw [findChild_setChild_ne cs c2 (fun e => hab e.symm)]
              exact hp
      | none =>
        simp only [hfc] at h
        cases hmk : mkdirAll (Node.dir pm []) qs pm with
        | none => simp only [hmk] at h; exact absurd h (by simp)
        | some c2 =>
          simp only [hmk] at h
          injection h with h
          subst h
          cases p with
          | nil =>
            simp only [lookup] at hp
            injection hp with hp
            subst hp
            simp [Node.isDir] at hv
          | cons b ps =>
            by_cases hab : b = a
            · subst hab
              simp only [lookup, hfc] at hp
              exact absurd hp (by simp)
            · simp only [lookup] at hp ⊢
              rw [findChild_setChild_ne cs c2 (fun e => hab e.symm)]
              exact hp

theorem mkdirAll_dir {fs fs' : Node} {q p : Path} {pm dm : Nat}
    {dcs : List (String × Node)} (h : mkdirAll fs q pm = some fs')
    (hp : lookup fs p = some (Node.dir dm dcs)) :
    ∃ cs2, lookup fs' p = some (Node.dir dm cs2) := by
  induction q generalizing fs fs' p with
  | nil =>
    cases fs with
    | dir m cs =>
      simp only [mkdirAll] at h
      injection h with h
      subst h
      exact ⟨dcs, hp⟩
    | file c fp => simp [mkdirAll] at h
    | symlink t => simp [mkdirAll] at h
  | cons a qs ih =>
    cases fs with
    | file c fp => simp [mkdirAll] at h
    | symlink t => simp [mkdirAll] at h
    | dir m cs =>
      simp only [mkdirAll] at h
      cases hfc : findChild cs a with
      | some c =>
        simp only [hfc] at h
        cases hmk : mkdirAll c qs pm with
        | none => simp only [hmk] at h; exact absurd h (by simp)
        | some c2 =>
          simp only [hmk] at h
          injection h with h
          subst h
          cases p with
          | nil =>
            simp only [lookup] at hp
            injection hp with hp
            injection hp with h1 h2
            subst h1
            subst h2
            refine ⟨setChild cs a c2, ?_⟩
            simp [lookup]
          | cons b ps =>
            by_cases hab : b = a
            · subst hab
              simp only [lookup, hfc] at hp
              obtain ⟨cs2, hcs2⟩ := ih hmk hp
              exact ⟨cs2, by
                simp only [lookup, findChild_setChild_self]
                exact hcs2⟩
            · refine ⟨dcs, ?_⟩
              simp only [lookup] at hp ⊢
              rw [findChild_setChild_ne cs c2 (fun e => hab e.symm)]
              exact hp
      | none =>
        simp only [hfc] at h
        cases hmk : mkdirAll (Node.dir pm []) qs pm with
        | none => simp only [hmk] at h; exact absurd h (by simp)
        | some c2 =>
          simp only [hmk] at h
          injection h with h
          subst h
          cases p with
          | nil =>
            simp only [lookup] at hp
            injection hp with hp
            injection hp with h1 h2
            subst h1
            subst h2
            refine ⟨setChild cs a c2, ?_⟩
            simp [lookup]
          | cons b ps =>
            by_cases hab : b = a
            · subst hab
              simp only [lookup, hfc] at hp
              exact absurd hp (by simp)
            · refine ⟨dcs, ?_⟩
              simp only [lookup] at hp ⊢
              rw [findChild_setChild_ne cs c2 (fun e => hab e.symm)]
              exact hp

theorem mkdirAll_fresh {fs fs' : Node} {q : Path} {pm : Nat}
    (h : mkdirAll fs q pm = some fs') (hq : lookup fs q = none) :
    lookup fs' q = some (Node.dir pm []) := by
  induction q generalizing fs fs' with
  | nil => simp [lookup] at hq
  | cons a qs ih =>
    cases fs with
    | file c fp => simp [mkdirAll] at h
    | symlink t => simp [mkdirAll] at h
    | dir m cs =>
      simp only [mkdirAll] at h
      cases hfc : findChild cs a with
      | some c =>
        simp only [hfc] at h
        cases hmk : mkdirAll c qs pm with
        | none => simp only [hmk] at h; exact absurd h (by simp)
        | some c2 =>
          simp only [hmk] at h
          injection h with h
          subst h
          simp only [lookup, hfc] at hq
          simp only [lookup, findChild_setChild_self]
          exact ih hmk hq
      | none =>
        simp only [hfc] at h
        cases hmk : mkdirAll (Node.dir pm []) qs pm with
        | none => simp only [hmk] at h; exact absurd h (by simp)
        | some c2 =>
          simp only [hmk] at h
          injection h with h
          subst h
          simp only [lookup, findChild_setChild_self]
          cases qs with
          | nil =>
            simp only [mkdirAll] at hmk
            injection hmk with hmk
            subst hmk
            simp [lookup]
          | cons y ys =>
            have : lookup (Node.dir pm []) (y :: ys) = none := by
              simp [lookup, findChild]
            exact ih hmk this

theorem mkdirAll_none_of_nondir {fs v : Node} {q : Path} {pm : Nat}
    (hq : lookup fs q = some v) (hv : v.isDir = false) :
    mkdirAll fs q pm = none := by
  induction q generalizing fs with
  | nil =>
    simp only [lookup] at hq
    injection hq with hq
    subst hq
    cases fs with
    | dir m cs => simp [Node.isDir] at hv
    | file c fp => rfl
    | symlink t => rfl
  | cons a qs ih =>
    cases fs with
    | file c fp => rfl
    | symlink t => rfl
    | dir m cs =>
      simp only [lookup] at hq
      cases hfc : findChild cs a with
      | none => rw [hfc] at hq; exact absurd hq (by simp)
      | some c =>
        rw [hfc] at hq
        simp only [mkdirAll, hfc, ih hq]

theorem mkdirAll_concat_none {fs fs' : Node} {q : Path} {n : String}
    {pm : Nat} (h : mkdirAll fs q pm = some fs')
    (hn : lookup fs (q ++ [n]) = none) : lookup fs' (q ++ [n]) = none := by
  cases hq : lookup fs q with
  | none =>
    have hfr := mkdirAll_fresh h hq
    rw [lookup_append]
    rw [hfr]
    simp [lookup, findChild]
  | some v =>
    cases v with
    | dir dm dcs =>
      rw [mkdirAll_of_dir hq pm] at h
      injection h with h
      subst h
      exact hn
    | file c fp =>
      rw [mkdirAll_none_of_nondir hq (by rfl)] at h
      exact absurd h (by simp)
    | symlink t =>
      rw [mkdirAll_none_of_nondir hq (by rfl)] at h
      exact absurd h (by simp)

theorem mkdirAll_fresh_concat {fs : Node} {q : Path} {n : String} {m : Nat}
    {cs : List (String × Node)} (hq : lookup fs q = some (Node.dir m cs))
    (hn : lookup fs (q ++ [n]) = none) (pm : Nat) :
    mkdirAll fs (q ++ [n]) pm = setAt fs (q ++ [n]) (Node.dir pm []) := by
  induction q generalizing fs with
  | nil =>
    simp only [lookup] at hq
    injection hq with hq
    subst hq
    have hfc : findChild cs n = none := by
      simp only [List.nil_append] at hn
      cases hfc : findChild cs n with
      | none => rfl
      | some c =>
        simp only [lookup, hfc] at hn
        simp [lookup] at hn
    simp only [List.nil_append, mkdirAll, setAt, hfc]
  | cons a qs ih =>
    cases fs with
    | file c fp => simp [lookup] at hq
    | symlink t => simp [lookup] at hq
    | dir m0 cs0 =>
      simp only [lookup] at hq
      cases hfc : findChild cs0 a with
      | none => rw [hfc] at hq; exact absurd hq (by simp)
      | some c =>
        rw [hfc] at hq
        have hn2 : lookup c (qs ++ [n]) = none := by
          rw [List.cons_append] at hn
          simpa [lookup, hfc] using hn
        have ihe := ih hq hn2
        have hcons : ∃ x xs, qs ++ [n] = x :: xs := by
          cases qs with
          | nil => exact ⟨n, [], rfl⟩
          | cons y ys => exact ⟨y, ys ++ [n], rfl⟩
        obtain ⟨x, xs, hqr⟩ := hcons
        rw [List.cons_append, hqr]
        simp only [mkdirAll, setAt, hfc]
        rw [← hqr, ihe]

/-! Preservation of well-formedness by every mutation. -/

theorem wfN_setAt {fs fs' v : Node} {p : Path} (hwf : wfN fs = true)
    (hv : wfN v = true) (h : setAt fs p v = some fs') : wfN fs' = true := by
  induction p generalizing fs fs' with
  | nil => cases fs <;> simp [setAt] at h
  | cons a as ih =>
    cases fs with
    | file c pm => simp [setAt] at h
    | symlink t => simp [setAt] at h
    | dir m cs =>
      obtain ⟨hnd, hwl⟩ := wfN_dir hwf
      cases as with
      | nil =>
        simp only [setAt] at h
        injection h with h
        subst h
        simp only [wfN, Bool.and_eq_true]
        exact ⟨nodupKeys_setChild cs a v hnd, wfL_setChild hwl hv⟩
      | cons b bs =>
        simp only [setAt] at h
        cases hfc : findChild cs a with
        | none => simp only [hfc] at h; exact absurd h (by simp)
        | some c =>
          simp only [hfc] at h
          cases hsa : setAt c (b :: bs) v with
          | none => simp only [hsa] at h; exact absurd h (by simp)
          | some c2 =>
            simp only [hsa] at h
            injection h with h
            subst h
            have hc2 := ih (wfL_find hwl hfc) hsa
            simp only [wfN, Bool.and_eq_true]
            exact ⟨nodupKeys_setChild cs a c2 hnd, wfL_setChild hwl hc2⟩

theorem wfN_removeAt {fs fs' : Node} {p : Path} (hwf : wfN fs = true)
    (h : removeAt fs p = some fs') : wfN fs' = true := by
  induction p generalizing fs fs' with
  | nil => cases fs <;> simp [removeAt] at h
  | cons a as ih =>
    cases fs with
    | file c pm => simp [removeAt] at h
    | symlink t => simp [removeAt] at h
    | dir m cs =>
      obtain ⟨hnd, hwl⟩ := wfN_dir hwf
      cases as with
      | nil =>
        simp only [removeAt] at h
        injection h with h
        subst h
        simp only [wfN, Bool.and_eq_true]
        exact ⟨nodupKeys_delChild cs a hnd, wfL_delChild hwl⟩
      | cons b bs =>
        simp only [removeAt] at h
        cases hfc : findChild cs a with
        | none => simp only [hfc] at h; exact absurd h (by simp)
        | some c =>
          simp only [hfc] at h
          cases hra : removeAt c (b :: bs) with
          | none => simp only [hra] at h; exact absurd h (by simp)
          | some c2 =>
            simp only [hra] at h
            injection h with h
            subst h
            have hc2 := ih (wfL_find hwl hfc) hra
            simp only [wfN, Bool.and_eq_true]
            exact ⟨nodupKeys_setChild cs a c2 hnd, wfL_setChild hwl hc2⟩

theorem wfN_removeAll {fs : Node} (p : Path) (hwf : wfN fs = true) :
    wfN (removeAll fs p) = true := by
  induction p generalizing fs with
  | nil => rw [removeAll_nil]; exact hwf
  | cons a as ih =>
    cases fs with
    | file c pm => exact hwf
    | symlink t => exact hwf
    | dir m cs =>
      obtain ⟨hnd, hwl⟩ := wfN_dir hwf
      cases as with
      | nil =>
        simp only [removeAll, wfN, Bool.and_eq_true]
        exact ⟨nodupKeys_delChild cs a hnd, wfL_delChild hwl⟩
      | cons b bs =>
        simp only [removeAll]
        cases hfc : findChild cs a with
        | none => exact hwf
        | some c =>
          have hc2 := ih (wfL_find hwl hfc)
          simp only [wfN, Bool.and_eq_true]
          exact ⟨nodupKeys_setChild cs a _ hnd, wfL_setChild hwl hc2⟩

theorem wfN_mkdirAll {fs fs' : Node} {q : Path} {pm : Nat}
    (hwf : wfN fs = true) (h : mkdirAll fs q pm = some fs') :
    wfN fs' = true := by
  induction q generalizing fs fs' with
  | nil =>
    cases fs with
    | dir m cs =>
      simp only [mkdirAll] at h
      injection h with h
      subst h
      exact hwf
    | file c fp => simp [mkdirAll] at h
    | symlink t => simp [mkdirAll] at h
  | cons a qs ih =>
    cases fs with
    | file c fp => simp [mkdirAll] at h
    | symlink t => simp [mkdirAll] at h
    | dir m cs =>
      obtain ⟨hnd, hwl⟩ := wfN_dir hwf
      simp only [mkdirAll] at h
      cases hfc : findChild cs a with
      | some c =>
        simp only [hfc] at h
        cases hmk : mkdirAll c qs pm with
        | none => simp only [hmk] at h; exact absurd h (by simp)
        | some c2 =>
          simp only [hmk] at h
          injection h with h
          subst h
          have hc2 := ih (wfL_find hwl hfc) hmk
          simp only [wfN, Bool.and_eq_true]
          exact ⟨nodupKeys_setChild cs a c2 hnd, wfL_setChild hwl hc2⟩
      | none =>
        simp only [hfc] at h
        cases hmk : mkdirAll (Node.dir pm []) qs pm with
        | none => simp only [hmk] at h; exact absurd h (by simp)
        | some c2 =>
          simp only [hmk] at h
          injection h with h
          subst h
          have hc2 := ih (by simp [wfN, nodupKeys, wfL]) hmk
          simp only [wfN, Bool.and_eq_true]
          exact ⟨nodupKeys_setChild cs a c2 hnd, wfL_setChild hwl hc2⟩

/-! Lemmas about stat, osCreate, osRemove and copyFile. -/

theorem stat_of_file {fs : Node} {p : Path} {c : List Nat} {pm : Nat}
    (h : lookup fs p = some (Node.file c pm)) :
    stat fs p = some (Node.file c pm) := by
  simp [stat, h]

theorem stat_of_dir {fs : Node} {p : Path} {m : Nat}
    {cs : List (String × Node)} (h : lookup fs p = some (Node.dir m cs)) :
    stat fs p = some (Node.dir m cs) := by
  simp [stat, h]

theorem stat_of_none {fs : Node} {p : Path} (h : lookup fs p = none) :
    stat fs p = none := by
  simp [stat, h]

theorem osCreate_setAt {fs fs' : Node} {p : Path}
    (h : osCreate fs p = some fs') :
    setAt fs p (Node.file [] 0o666) = some fs' := by
  unfold osCreate at h
  cases hl : lookup fs p with
  | none => rw [hl] at h; exact h
  | some v =>
    cases v with
    | file c pm => rw [hl] at h; exact h
    | dir m cs => rw [hl] at h; exact absurd h (by simp)
    | symlink t => rw [hl] at h; exact absurd h (by simp)

theorem copyFile_ok {fs : Node} {src q : Path} {n : String} {c : List Nat}
    {cp m : Nat} {dcs : List (String × Node)}
    (hsrc : lookup fs src = some (Node.file c cp))
    (hq : lookup fs q = some (Node.dir m dcs))
    (hdst : lookup fs (q ++ [n]) = none) :
    ∃ fs', setAt fs (q ++ [n]) (Node.file c 0o666) = some fs' ∧
      copyFile fs src (q ++ [n]) = (fs', true) := by
  obtain ⟨fs', hset⟩ := setAt_concat_isSome hq n (Node.file c 0o666)
  obtain ⟨fs2, hset2⟩ := setAt_concat_isSome hq n (Node.file [] 0o666)
  refine ⟨fs', hset, ?_⟩
  have hdrop : (q ++ [n]).dropLast = q := by simp
  have hoc : osCreate fs (q ++ [n]) = some fs2 := by
    unfold osCreate
    rw [hdst]
    exact hset2
  have hcollapse : setAt fs2 (q ++ [n]) (Node.file c 0o666) = some fs' := by
    rw [setAt_setAt (Node.file c 0o666) hset2]
    exact hset
  simp only [copyFile, stat_of_file hsrc, hdrop, mkdirAll_of_dir hq, hoc,
    hcollapse]

theorem copyFile_preserve {fs v : Node} {src dst r : Path}
    (hr : lookup fs r = some v) (hnd : v.isDir = false)
    (hap : apart r dst = true) :
    lookup (copyFile fs src dst).1 r = some v := by
  simp only [copyFile]
  cases hstat : stat fs src with
  | none => exact hr
  | some srcNode =>
    dsimp only
    cases hmk : mkdirAll fs dst.dropLast 0o755 with
    | none => exact hr
    | some fs1 =>
      dsimp only
      have h1 : lookup fs1 r = some v := mkdirAll_preserve hmk hr hnd
      cases hoc : osCreate fs1 dst with
      | none => exact h1
      | some fs2 =>
        dsimp only
        have h2 : lookup fs2 r = some v := by
          rw [lookup_setAt_frame (osCreate_setAt hoc) (apart_pfx_right hap)
            (apart_pfx_left hap)]
          exact h1
        cases srcNode with
        | file c cp =>
          dsimp only
          cases hsa : setAt fs2 dst (Node.file c 0o666) with
          | none => exact h2
          | some fs3 =>
            dsimp only
            rw [lookup_setAt_frame hsa (apart_pfx_right hap)
              (apart_pfx_left hap)]
            exact h2
        | dir dm dcs => exact h2
        | symlink t => exact h2

theorem wfN_copyFile {fs : Node} (src dst : Path) (hwf : wfN fs = true) :
    wfN (copyFile fs src dst).1 = true := by
  simp only [copyFile]
  cases hstat : stat fs src with
  | none => exact hwf
  | some srcNode =>
    dsimp only
    cases hmk : mkdirAll fs dst.dropLast 0o755 with
    | none => exact hwf
    | some fs1 =>
      dsimp only
      have h1 : wfN fs1 = true := wfN_mkdirAll hwf hmk
      cases hoc : osCreate fs1 dst with
      | none => exact h1
      | some fs2 =>
        dsimp only
        have h2 : wfN fs2 = true :=
          wfN_setAt h1 (by rfl) (osCreate_setAt hoc)
        cases srcNode with
        | file c cp =>
          dsimp only
          cases hsa : setAt fs2 dst (Node.file c 0o666) with
          | none => exact h2
          | some fs3 => dsimp only; exact wfN_setAt h2 (by rfl) hsa
        | dir dm dcs => exact h2
        | symlink t => exact h2

theorem nsize_pos (t : Node) : 1 ≤ nsize t := by
  cases t <;> simp [nsize]

theorem lsizeN_cons (n : String) (c : Node) (rest : List (String × Node)) :
    lsizeN ((n, c) :: rest) = 1 + nsize c + lsizeN rest := by
  rfl

theorem wfN_copyAux : ∀ k : Nat,
    (∀ t fs src dst, nsize t ≤ k → wfN fs = true →
      wfN (copyDirFrom t fs src dst).1 = true) ∧
    (∀ cs fs src dst, lsizeN cs ≤ k → wfN fs = true →
      wfN (copyEntries cs fs src dst).1 = true) := by
  intro k
  induction k with
  | zero =>
    constructor
    · intro t fs src dst hk _
      have := nsize_pos t
      omega
    · intro cs fs src dst hk hwf
      cases cs with
      | nil => exact hwf
      | cons hd tl =>
        obtain ⟨n, c⟩ := hd
        rw [lsizeN_cons] at hk
        have := nsize_pos c
        omega
  | succ k ih =>
    constructor
    · intro t fs src dst hk hwf
      simp only [copyDirFrom]
      cases hmk : mkdirAll fs dst t.permOf with
      | none => exact hwf
      | some fs1 =>
        dsimp only
        have h1 : wfN fs1 = true := wfN_mkdirAll hwf hmk
        cases t with
        | dir m cs =>
          dsimp only
          have hsz : lsizeN cs ≤ k := by
            have : nsize (Node.dir m cs) = 1 + lsizeN cs := rfl
            omega
          exact ih.2 cs fs1 src dst hsz h1
        | file c cp => exact h1
        | symlink t' => exact h1
    · intro cs
      induction cs with
      | nil =>
        intro fs src dst hk hwf
        exact hwf
      | cons hd tl ihl =>
        intro fs src dst hk hwf
        obtain ⟨n, c⟩ := hd
        rw [lsizeN_cons] at hk
        simp only [copyEntries]
        cases c with
        | dir m ccs =>
          dsimp only
          cases hcd : copyDirFrom (Node.dir m ccs) fs (src ++ [n])
              (dst ++ [n]) with
          | mk fs1 ok =>
            have h1 : wfN fs1 = true := by
              have := ih.1 (Node.dir m ccs) fs (src ++ [n]) (dst ++ [n])
                (by omega) hwf
              rw [hcd] at this
              exact this
            cases ok with
            | true => exact ihl fs1 src dst (by omega) h1
            | false => exact h1
        | file cc cp =>
          dsimp only
          cases hcf : copyFile fs (src ++ [n]) (dst ++ [n]) with
          | mk fs1 ok =>
            have h1 : wfN fs1 = true := by
              have := wfN_copyFile (src ++ [n]) (dst ++ [n]) hwf
              rw [hcf] at this
              exact this
            cases ok with
            | true => exact ihl fs1 src dst (by omega) h1
            | false => exact h1
        | symlink t' =>
          dsimp only
          cases hcf : copyFile fs (src ++ [n]) (dst ++ [n]) with
          | mk fs1 ok =>
            have h1 : wfN fs1 = true := by
              have := wfN_copyFile (src ++ [n]) (dst ++ [n]) hwf
              rw [hcf] at this
              exact this
            cases ok with
            | true => exact ihl fs1 src dst (by omega) h1
            | false => exact h1

theorem wfN_copyDir {fs : Node} (src dst : Path) (hwf : wfN fs = true) :
    wfN (copyDir fs src dst).1 = true := by
  unfold copyDir
  cases hstat : stat fs src with
  | none => exact hwf
  | some srcNode =>
    exact (wfN_copyAux (nsize srcNode)).1 srcNode fs src dst (le_refl _) hwf

/-! Correctness of the recursive copy. -/

theorem lookup_dir_single (m : Nat) (cs : List (String × Node))
    (nm : String) : lookup (Node.dir m cs) [nm] = findChild cs nm := by
  cases hfc : findChild cs nm <;> simp [lookup, hfc]

theorem findChild_of_rest {nm nm' : String} {c c' : Node}
    {rest : List (String × Node)}
    (hnd : nodupKeys ((nm, c) :: rest) = true)
    (h : findChild rest nm' = some c') :
    findChild ((nm, c) :: rest) nm' = some c' := by
  simp only [nodupKeys, Bool.and_eq_true, Bool.not_eq_true'] at hnd
  by_cases he : nm = nm'
  · subst he
    rw [findChild_eq_none_of_hasKey rest hnd.1] at h
    exact absurd h (by simp)
  · simp [findChild, he, h]

theorem copyAux_ok : ∀ k : Nat,
    (∀ m cs fs src q n pm pcs,
      nsize (Node.dir m cs) ≤ k →
      wfN (Node.dir m cs) = true → sfN (Node.dir m cs) = true →
      lookup fs src = some (Node.dir m cs) →
      lookup fs (q ++ [n]) = none →
      lookup fs q = some (Node.dir pm pcs) →
      apart src (q ++ [n]) = true →
      ∃ fs', setAt fs (q ++ [n]) (copyShape (Node.dir m cs)) = some fs' ∧
        copyDirFrom (Node.dir m cs) fs src (q ++ [n]) = (fs', true)) ∧
    (∀ cs acc fs fs1 src q n dm,
      lsizeN cs ≤ k →
      wfL cs = true → sfL cs = true → nodupKeys cs = true →
      (∀ nm c, findChild cs nm = some c →
        lookup fs (src ++ [nm]) = some c) →
      (∀ nm c, findChild cs nm = some c → findChild acc nm = none) →
      setAt fs (q ++ [n]) (Node.dir dm acc) = some fs1 →
      apart src (q ++ [n]) = true →
      ∃ fs2, setAt fs (q ++ [n]) (Node.dir dm (acc ++ shapeL cs)) =
          some fs2 ∧
        copyEntries cs fs1 src (q ++ [n]) = (fs2, true)) := by
  intro k
  induction k with
  | zero =>
    constructor
    · intro m cs fs src q n pm pcs hk
      have : (1 : Nat) ≤ nsize (Node.dir m cs) := nsize_pos _
      omega
    · intro cs acc fs fs1 src q n dm hk _ _ _ _ _ hset1 _
      cases cs with
      | nil =>
        refine ⟨fs1, ?_, rfl⟩
        simpa [shapeL] using hset1
      | cons hd tl =>
        obtain ⟨nm, c⟩ := hd
        rw [lsizeN_cons] at hk
        have := nsize_pos c
        omega
  | succ k ih =>
    constructor
    · intro m cs fs src q n pm pcs hk hwf hsf hsrc hdst hq hap
      obtain ⟨fs1, hset1⟩ := setAt_concat_isSome hq n (Node.dir m [])
      have hmk : mkdirAll fs (q ++ [n]) m = some fs1 := by
        rw [mkdirAll_fresh_concat hq hdst m]
        exact hset1
      have hmem : ∀ nm c, findChild cs nm = some c →
          lookup fs (src ++ [nm]) = some c := by
        intro nm c hfc
        rw [lookup_append, hsrc]
        simpa [lookup_dir_single] using hfc
      have hkeys : ∀ nm c, findChild cs nm = some c →
          findChild ([] : List (String × Node)) nm = none := by
        intro nm c _
        rfl
      have hsz : lsizeN cs ≤ k := by
        have : nsize (Node.dir m cs) = 1 + lsizeN cs := rfl
        omega
      obtain ⟨fs2, hset2, hrun⟩ := ih.2 cs [] fs fs1 src q n m hsz
        (wfN_dir hwf).2 (by simpa [sfN] using hsf) (wfN_dir hwf).1
        hmem hkeys hset1 hap
      refine ⟨fs2, ?_, ?_⟩
      · simpa [copyShape] using hset2
      · simp only [copyDirFrom, Node.permOf, hmk]
        exact hrun
    · intro cs
      induction cs with
      | nil =>
        intro acc fs fs1 src q n dm hk _ _ _ _ _ hset1 _
        refine ⟨fs1, ?_, rfl⟩
        simpa [shapeL] using hset1
      | cons hd tl ihl =>
        intro acc fs fs1 src q n dm hk hwl hsl hnd hmem hkeys hset1 hap
        obtain ⟨nm, c⟩ := hd
        rw [lsizeN_cons] at hk
        have hfc0 : findChild ((nm, c) :: tl) nm = some c := by
          simp [findChild]
        have hsrc1 : lookup fs1 (src ++ [nm]) = some c := by
          have hap2 := apart_snoc_left nm hap
          rw [lookup_setAt_frame hset1 (apart_pfx_right hap2)
            (apart_pfx_left hap2)]
          exact hmem nm c hfc0
        have hlk1 : lookup fs1 (q ++ [n]) = some (Node.dir dm acc) :=
          lookup_setAt_self hset1
        have haccnm : findChild acc nm = none := hkeys nm c hfc0
        have hdst1 : lookup fs1 ((q ++ [n]) ++ [nm]) = none := by
          rw [lookup_append, hlk1]
          simpa [lookup_dir_single] using haccnm
        have hnokey : hasKey acc nm = false := by
          rw [hasKey_eq_isSome, haccnm]
          rfl
        have hndtl : nodupKeys tl = true := by
          simp only [nodupKeys, Bool.and_eq_true, Bool.not_eq_true'] at hnd
          exact hnd.2
        have hkeynm : hasKey tl nm = false := by
          simp only [nodupKeys, Bool.and_eq_true, Bool.not_eq_true'] at hnd
          exact hnd.1
        have hwltl : wfL tl = true := by
          simp only [wfL, Bool.and_eq_true] at hwl
          exact hwl.2
        have hsltl : sfL tl = true := by
          simp only [sfL, Bool.and_eq_true] at hsl
          exact hsl.2
        have hmemtl : ∀ nm' c', findChild tl nm' = some c' →
            lookup fs (src ++ [nm']) = some c' := by
          intro nm' c' hfc'
          exact hmem nm' c' (findChild_of_rest hnd hfc')
        cases c with
        | symlink t' => simp [sfL, sfN] at hsl
        | file cc cp =>
          obtain ⟨fsb, hsetb, hcopy⟩ := copyFile_ok hsrc1 hlk1 hdst1
          have hsetb2 : setAt fs (q ++ [n])
              (Node.dir dm (acc ++ [(nm, Node.file cc 0o666)])) =
              some fsb := by
            rw [setAt_compose (Node.file cc 0o666) hset1
              (List.cons_ne_nil nm [])] at hsetb
            have heval : setAt (Node.dir dm acc) [nm]
                (Node.file cc 0o666) =
                some (Node.dir dm (acc ++ [(nm, Node.file cc 0o666)])) := by
              simp [setAt, setChild_append acc _ hnokey]
            rw [heval] at hsetb
            simpa using hsetb
          have hkeystl : ∀ nm' c', findChild tl nm' = some c' →
              findChild (acc ++ [(nm, Node.file cc 0o666)]) nm' = none := by
            intro nm' c' hfc'
            have hne : nm ≠ nm' := by
              intro he
              subst he
              rw [findChild_eq_none_of_hasKey tl hkeynm] at hfc'
              exact absurd hfc' (by simp)
            rw [findChild_append_right acc _
              (hkeys nm' c' (findChild_of_rest hnd hfc'))]
            simp [findChild, hne]
          obtain ⟨fs2, hset2, hrun⟩ := ihl (acc ++ [(nm, Node.file cc 0o666)])
            fs fsb src q n dm (by omega) hwltl hsltl hndtl hmemtl hkeystl
            hsetb2 hap
          refine ⟨fs2, ?_, ?_⟩
          · have hre : (acc ++ [(nm, Node.file cc 0o666)]) ++ shapeL tl =
                acc ++ shapeL ((nm, Node.file cc cp) :: tl) := by
              simp [shapeL, copyShape, List.append_assoc]
            rw [← hre]
            exact hset2
          · simp only [copyEntries]
            rw [hcopy]
            exact hrun
        | dir cm ccs =>
          have hwfc : wfN (Node.dir cm ccs) = true := by
            simp only [wfL, Bool.and_eq_true] at hwl
            exact hwl.1
          have hsfc : sfN (Node.dir cm ccs) = true := by
            simp only [sfL, Bool.and_eq_true] at hsl
            exact hsl.1
          obtain ⟨fsb, hsetb, hcd⟩ := ih.1 cm ccs fs1 (src ++ [nm])
            (q ++ [n]) nm dm acc (by omega) hwfc hsfc hsrc1 hdst1 hlk1
            (apart_snoc nm nm hap)
          have hsetb2 : setAt fs (q ++ [n])
              (Node.dir dm (acc ++ [(nm, copyShape (Node.dir cm ccs))])) =
              some fsb := by
            rw [setAt_compose (copyShape (Node.dir cm ccs)) hset1
              (List.cons_ne_nil nm [])] at hsetb
            have heval : setAt (Node.dir dm acc) [nm]
                (copyShape (Node.dir cm ccs)) =
                some (Node.dir dm
                  (acc ++ [(nm, copyShape (Node.dir cm ccs))])) := by
              simp [setAt, setChild_append acc _ hnokey]
            rw [heval] at hsetb
            simpa using hsetb
          have hkeystl : ∀ nm' c', findChild tl nm' = some c' →
              findChild (acc ++ [(nm, copyShape (Node.dir cm ccs))]) nm' =
                none := by
            intro nm' c' hfc'
            have hne : nm ≠ nm' := by
              intro he
              subst he
              rw [findChild_eq_none_of_hasKey tl hkeynm] at hfc'
              exact absurd hfc' (by simp)
            rw [findChild_append_right acc _
              (hkeys nm' c' (findChild_of_rest hnd hfc'))]
            simp [findChild, hne]
          obtain ⟨fs2, hset2, hrun⟩ := ihl
            (acc ++ [(nm, copyShape (Node.dir cm ccs))]) fs fsb src q n dm
            (by omega) hwltl hsltl hndtl hmemtl hkeystl hsetb2 hap
          refine ⟨fs2, ?_, ?_⟩
          · have hre : (acc ++ [(nm, copyShape (Node.dir cm ccs))]) ++
                shapeL tl = acc ++ shapeL ((nm, Node.dir cm ccs) :: tl) := by
              simp [shapeL, List.append_assoc]
            rw [← hre]
            exact hset2
          · simp only [copyEntries]
            rw [hcd]
            exact hrun

/-! Claim-facing helper lemmas. -/

theorem lookup_single_parent {fs v : Node} {q : Path} {n : String}
    (h : lookup fs (q ++ [n]) = some v) :
    ∃ dm dcs, lookup fs q = some (Node.dir dm dcs) := by
  rw [lookup_append] at h
  cases hq : lookup fs q with
  | none => rw [hq] at h; exact absurd h (by simp)
  | some n0 =>
    rw [hq] at h
    cases n0 with
    | dir dm dcs => exact ⟨dm, dcs, rfl⟩
    | file c cp => simp [lookup] at h
    | symlink t => simp [lookup] at h

theorem mkdirAll_file_none (c : List Nat) (cp : Nat) (q : Path) (pm : Nat) :
    mkdirAll (Node.file c cp) q pm = none := by
  cases q <;> rfl

theorem copyFile_mkdir_ok {fs fsm : Node} {src dst : Path} {c : List Nat}
    {cp : Nat} (hsrc : lookup fs src = some (Node.file c cp))
    (hmk : mkdirAll fs dst.dropLast 0o755 = some fsm)
    (hdst : lookup fs dst = none) (hne : dst ≠ []) :
    ∃ fs', setAt fsm dst (Node.file c 0o666) = some fs' ∧
      copyFile fs src dst = (fs', true) := by
  have hdp : dst.dropLast ++ [dst.getLast hne] = dst :=
    List.dropLast_append_getLast hne
  have hpar : ∃ pm pcs, lookup fsm dst.dropLast =
      some (Node.dir pm pcs) := by
    cases hq : lookup fs dst.dropLast with
    | none => exact ⟨0o755, [], mkdirAll_fresh hmk hq⟩
    | some v =>
      cases v with
      | dir dm dcs =>
        rw [mkdirAll_of_dir hq] at hmk
        injection hmk with hmk
        subst hmk
        exact ⟨dm, dcs, hq⟩
      | file cc ccp =>
        rw [mkdirAll_none_of_nondir hq (by rfl)] at hmk
        exact absurd hmk (by simp)
      | symlink t =>
        rw [mkdirAll_none_of_nondir hq (by rfl)] at hmk
        exact absurd hmk (by simp)
  obtain ⟨pm, pcs, hpar⟩ := hpar
  have hdstm : lookup fsm dst = none := by
    rw [← hdp]
    rw [← hdp] at hdst
    exact mkdirAll_concat_none hmk hdst
  obtain ⟨fs2, hset2⟩ := setAt_concat_isSome hpar (dst.getLast hne)
    (Node.file [] 0o666)
  rw [hdp] at hset2
  obtain ⟨fs3, hset3⟩ := setAt_concat_isSome hpar (dst.getLast hne)
    (Node.file c 0o666)
  rw [hdp] at hset3
  refine ⟨fs3, hset3, ?_⟩
  have hoc : osCreate fsm dst = some fs2 := by
    unfold osCreate
    rw [hdstm]
    exact hset2
  have hcollapse : setAt fs2 dst (Node.file c 0o666) = some fs3 := by
    rw [setAt_setAt (Node.file c 0o666) hset2]
    exact hset3
  simp only [copyFile, stat_of_file hsrc, hmk, hoc, hcollapse]

theorem copyDir_ok {fs : Node} {src q : Path} {n : String} {m : Nat}
    {cs : List (String × Node)} {pm : Nat} {pcs : List (String × Node)}
    (hsrc : lookup fs src = some (Node.dir m cs))
    (hwf : wfN (Node.dir m cs) = true) (hsf : sfN (Node.dir m cs) = true)
    (hdst : lookup fs (q ++ [n]) = none)
    (hq : lookup fs q = some (Node.dir pm pcs))
    (hap : apart src (q ++ [n]) = true) :
    ∃ fs', setAt fs (q ++ [n]) (copyShape (Node.dir m cs)) = some fs' ∧
      copyDir fs src (q ++ [n]) = (fs', true) := by
  obtain ⟨fs', hset, hrun⟩ := (copyAux_ok (nsize (Node.dir m cs))).1 m cs
    fs src q n pm pcs (le_refl _) hwf hsf hsrc hdst hq hap
  refine ⟨fs', hset, ?_⟩
  simp only [copyDir, stat_of_dir hsrc]
  exact hrun

theorem processPath_symlink {fs : Node} {item homeDir repoD t : Path}
    (h : lookup fs (homeDir ++ item) = some (Node.symlink t))
    (b : Bool) :
    processPath fs item homeDir repoD b = (fs, [Ev.printed skipMsg]) := by
  simp [processPath, backupPhase, symlinkPhase, h]

theorem backupPhase_fst (fs : Node) (sp dp : Path) :
    (backupPhase fs sp dp true).1 = (backupPhase fs sp dp false).1 := by
  simp only [backupPhase]
  cases hl : lookup fs sp with
  | none => rfl
  | some fi =>
    dsimp only
    cases fi with
    | symlink t => rfl
    | dir m cs => dsimp only
    | file c cp =>
      dsimp only
      cases copyFile fs sp dp with
      | mk fs1 ok =>
        dsimp only
        cases osRemove fs1 sp with
        | some fs2 => rfl
        | none => rfl

theorem backupPhase_snd_shape (fs : Node) (sp dp : Path) :
    ((backupPhase fs sp dp true).2).map Ev.isPrint =
      ((backupPhase fs sp dp false).2).map Ev.isPrint := by
  simp only [backupPhase]
  cases hl : lookup fs sp with
  | none => rfl
  | some fi =>
    dsimp only
    cases fi with
    | symlink t => rfl
    | dir m cs =>
      dsimp only
      cases copyDir fs sp dp with
      | mk fs1 ok =>
        cases ok with
        | true => rfl
        | false => rfl
    | file c cp =>
      dsimp only
      cases copyFile fs sp dp with
      | mk fs1 ok =>
        dsimp only
        cases osRemove fs1 sp with
        | some fs2 => cases ok with
          | true => rfl
          | false => rfl
        | none => cases ok with
          | true => rfl
          | false => rfl

theorem processPath_fst_eq (fs : Node) (item homeDir repoD : Path)
    (b : Bool) :
    (processPath fs item homeDir repoD b).1 =
      (symlinkPhase (backupPhase fs (homeDir ++ item) (repoD ++ item) b).1
        (homeDir ++ item) (repoD ++ item)).1 := by
  simp only [processPath]

theorem processPath_snd_eq (fs : Node) (item homeDir repoD : Path)
    (b : Bool) :
    (processPath fs item homeDir repoD b).2 =
      (backupPhase fs (homeDir ++ item) (repoD ++ item) b).2 ++
      (symlinkPhase (backupPhase fs (homeDir ++ item) (repoD ++ item) b).1
        (homeDir ++ item) (repoD ++ item)).2 := by
  simp only [processPath]

theorem fileBackupPhase_fst {fs : Node} {sp : Path} (dp : Path) (b : Bool)
    (hnd : isDirAt fs sp = false) :
    (fileBackupPhase fs sp dp b).1 = (backupPhase fs sp dp b).1 := by
  unfold isDirAt at hnd
  simp only [fileBackupPhase, backupPhase]
  cases hl : lookup fs sp with
  | none => rfl
  | some fi =>
    rw [hl] at hnd
    dsimp only
    cases fi with
    | symlink t => rfl
    | dir m cs => simp at hnd
    | file c cp =>
      dsimp only
      cases copyFile fs sp dp with
      | mk fs1 ok =>
        dsimp only
        cases osRemove fs1 sp with
        | some fs2 => rfl
        | none => rfl

theorem processFile_fst_eq (fs : Node) (item homeDir repoD : Path)
    (b : Bool) :
    (processFile fs item homeDir repoD b).1 =
      (symlinkPhase
        (fileBackupPhase fs (homeDir ++ item) (repoD ++ item) b).1
        (homeDir ++ item) (repoD ++ item)).1 := by
  simp only [processFile]

/-! The claims. -/

/-- C2: for every tracked item whose source path is a symbolic link,
processPath performs no copy, no delete and no symlink creation: the
returned tree is the input tree unchanged, the only output is the skip
message, and this holds for init and sync alike. -/
theorem claim2_symlink_skip (fs : Node) (item homeDir repoD t : Path)
    (b : Bool)
    (h : lookup fs (homeDir ++ item) = some (Node.symlink t)) :
    processPath fs item homeDir repoD b = (fs, [Ev.printed skipMsg]) :=
  processPath_symlink h b

theorem claim2_symlink_skip_witness :
    processPath fsMigrated [".bashrc"] ["home"] ["repo", "dotfiles"]
      false = (fsMigrated, [Ev.printed skipMsg]) :=
  claim2_symlink_skip fsMigrated [".bashrc"] ["home"] ["repo", "dotfiles"]
    ["repo", "dotfiles", ".bashrc"] false rfl

/-- C8: processPath with isSync set to true and with isSync set to false
produce the same final filesystem tree from every starting state, and
their event lists have the same shape (the same sequence of print versus
log events); the flag changes only the message texts. -/
theorem claim8_isSync_state_equal (fs : Node)
    (item homeDir repoD : Path) :
    (processPath fs item homeDir repoD true).1 =
      (processPath fs item homeDir repoD false).1 ∧
    ((processPath fs item homeDir repoD true).2).map Ev.isPrint =
      ((processPath fs item homeDir repoD false).2).map Ev.isPrint := by
  constructor
  · rw [processPath_fst_eq, processPath_fst_eq, backupPhase_fst]
  · rw [processPath_snd_eq, processPath_snd_eq, List.map_append,
      List.map_append, backupPhase_snd_shape, backupPhase_fst]

/-- C10: the per-item procedures of the two program variants, processFile
from src/main.go and processPath from src/unnamed/part_000, produce the
same final filesystem tree whenever the source entry is not a directory
(symbolic link, missing path or regular file); access-error states are not
representable in the model, and in the source both variants treat them
with the same fall-through logging. -/
theorem claim10_variants_agree (fs : Node) (item homeDir repoD : Path)
    (b : Bool) (h : isDirAt fs (homeDir ++ item) = false) :
    (processFile fs item homeDir repoD b).1 =
      (processPath fs item homeDir repoD b).1 := by
  rw [processFile_fst_eq, processPath_fst_eq, fileBackupPhase_fst _ b h]

theorem claim10_variants_agree_witness :
    (processFile fsHomeFile [".bashrc"] ["home"] ["repo", "dotfiles"]
        false).1 =
      (processPath fsHomeFile [".bashrc"] ["home"] ["repo", "dotfiles"]
        false).1 :=
  claim10_variants_agree fsHomeFile [".bashrc"] ["home"]
    ["repo", "dotfiles"] false rfl

/-- C6: for every tracked item where neither the source nor the
repository copy exists, a run leaves the tree untouched, creates no
symlink, only logs the two messages, and processing of the remaining
items continues from the unchanged tree. -/
theorem claim6_missing_both_untouched (fs : Node)
    (item homeDir repoD : Path) (b : Bool)
    (h1 : lookup fs (homeDir ++ item) = none)
    (h2 : lookup fs (repoD ++ item) = none) :
    processPath fs item homeDir repoD b =
      (fs, [Ev.logged missingMsg, Ev.logged noBackupMsg]) ∧
    ∀ rest, runItems fs (item :: rest) homeDir repoD b =
      ((runItems fs rest homeDir repoD b).1,
        Ev.logged missingMsg :: Ev.logged noBackupMsg ::
          (runItems fs rest homeDir repoD b).2) := by
  have hpp : processPath fs item homeDir repoD b =
      (fs, [Ev.logged missingMsg, Ev.logged noBackupMsg]) := by
    simp [processPath, backupPhase, symlinkPhase, h1, stat_of_none h2]
  refine ⟨hpp, ?_⟩
  intro rest
  simp only [runItems, hpp]
  cases runItems fs rest homeDir repoD b with
  | mk fs2 evs2 => rfl

theorem claim6_missing_both_untouched_witness :
    processPath fsRepoOnly [".nope"] ["home"] ["repo", "dotfiles"] true =
      (fsRepoOnly, [Ev.logged missingMsg, Ev.logged noBackupMsg]) ∧
    ∀ rest, runItems fsRepoOnly ([".nope"] :: rest) ["home"]
        ["repo", "dotfiles"] true =
      ((runItems fsRepoOnly rest ["home"] ["repo", "dotfiles"] true).1,
        Ev.logged missingMsg :: Ev.logged noBackupMsg ::
          (runItems fsRepoOnly rest ["home"] ["repo", "dotfiles"]
            true).2) :=
  claim6_missing_both_untouched fsRepoOnly [".nope"] ["home"]
    ["repo", "dotfiles"] true rfl rfl

/-- C5: running sync when the dotfiles repository subdirectory does not
exist returns the descriptive error before any item is processed; no
resulting tree is produced, so no filesystem mutation occurs. -/
theorem claim5_sync_fails_fast (fs : Node) (items : List Path)
    (homeDir repoD : Path)
    (h : stat fs (repoD ++ [dotfilesDirName]) = none) :
    syncCmd fs items homeDir repoD = Except.error syncErrMsg := by
  simp [syncCmd, h]

theorem claim5_sync_fails_fast_witness :
    syncCmd fsNoRepo [[".vimrc"]] ["home"] ["repo"] =
      Except.error syncErrMsg :=
  claim5_sync_fails_fast fsNoRepo [[".vimrc"]] ["home"] ["repo"] rfl

/-- C4: for every tracked item whose source path is absent while the
repository copy exists (and whose source parent directory is in place),
a sync run creates a symlink at the source path pointing to the
repository copy. -/
theorem claim4_sync_creates_symlink (fs n0 : Node)
    (item homeDir repoD : Path) (pm : Nat) (pcs : List (String × Node))
    (h1 : lookup fs (homeDir ++ item) = none)
    (h2 : stat fs (repoD ++ item) = some n0)
    (hpar : lookup fs (homeDir ++ item).dropLast =
      some (Node.dir pm pcs)) :
    lookup ((processPath fs item homeDir repoD true).1)
        (homeDir ++ item) =
      some (Node.symlink (repoD ++ item)) := by
  have hne : homeDir ++ item ≠ [] := by
    intro he
    rw [he] at h1
    simp [lookup] at h1
  obtain ⟨fs5, hset5⟩ := setAt_concat_isSome hpar
    ((homeDir ++ item).getLast hne) (Node.symlink (repoD ++ item))
  rw [List.dropLast_append_getLast hne] at hset5
  rw [processPath_fst_eq]
  have hb : (backupPhase fs (homeDir ++ item) (repoD ++ item) true).1 =
      fs := by
    simp [backupPhase, h1]
  rw [hb]
  simp only [symlinkPhase, h1, h2, hset5]
  exact lookup_setAt_self hset5

theorem claim4_sync_creates_symlink_witness :
    lookup ((processPath fsRepoOnly [".vimrc"] ["home"]
        ["repo", "dotfiles"] true).1) (["home"] ++ [".vimrc"]) =
      some (Node.symlink (["repo", "dotfiles"] ++ [".vimrc"])) :=
  claim4_sync_creates_symlink fsRepoOnly (Node.file [9] 0o666)
    [".vimrc"] ["home"] ["repo", "dotfiles"] 0o755 [] rfl rfl rfl

theorem runItems_symlinks {fs : Node} {homeDir repoD : Path}
    (items : List Path)
    (h : ∀ item ∈ items, ∃ t,
      lookup fs (homeDir ++ item) = some (Node.symlink t)) :
    runItems fs items homeDir repoD false =
      (fs, List.replicate items.length (Ev.printed skipMsg)) := by
  induction items with
  | nil => rfl
  | cons it rest ih =>
    obtain ⟨t, ht⟩ := h it (by simp)
    have hrest := ih (fun item hm => h item (by simp [hm]))
    simp only [runItems, processPath_symlink ht false, hrest,
      List.length_cons, List.replicate_succ]
    rfl

/-- C3: a second init run over the same item set is idempotent: given
that the dotfiles directory exists and the first run left a symlink at
every source path, the second run succeeds, finds the symlinks, emits
only skip messages (so performs no copies) and returns the tree
unchanged. -/
theorem claim3_init_idempotent (fs : Node) (items : List Path)
    (homeDir repoD : Path) (m : Nat) (cs : List (String × Node))
    (h1 : lookup fs (repoD ++ [dotfilesDirName]) = some (Node.dir m cs))
    (h2 : ∀ item ∈ items, ∃ t,
      lookup fs (homeDir ++ item) = some (Node.symlink t)) :
    initCmd fs items homeDir repoD =
      some (fs, List.replicate items.length (Ev.printed skipMsg)) := by
  simp only [initCmd, mkdirAll_of_dir h1, runItems_symlinks items h2]

theorem claim3_init_idempotent_witness :
    initCmd fsMigrated [[".bashrc"]] ["home"] ["repo"] =
      some (fsMigrated,
        List.replicate 1 (Ev.printed skipMsg)) :=
  claim3_init_idempotent fsMigrated [[".bashrc"]] ["home"] ["repo"]
    0o755 [(".bashrc", Node.file [1] 0o666)] rfl
    (by
      intro item hm
      simp only [List.mem_singleton] at hm
      subst hm
      exact ⟨["repo", "dotfiles", ".bashrc"], rfl⟩)

/-- C9: for every tracked item whose source exists and is not a symbolic
link, the copy-and-delete phase of processPath removes the original
unconditionally: os.Remove for a regular file and os.RemoveAll for a
directory run whether or not the preceding copy succeeded, so a failed
copy does not prevent removal of the only remaining copy of the data. -/
theorem claim9_unconditional_delete :
    (∀ fs (sp dp : Path) (c : List Nat) (cp : Nat) (b : Bool),
      wfN fs = true → lookup fs sp = some (Node.file c cp) →
      apart sp dp = true → sp ≠ [] →
      lookup ((backupPhase fs sp dp b).1) sp = none) ∧
    (∀ fs (sp dp : Path) (m : Nat) (cs : List (String × Node)) (b : Bool),
      wfN fs = true → lookup fs sp = some (Node.dir m cs) → sp ≠ [] →
      lookup ((backupPhase fs sp dp b).1) sp = none) := by
  constructor
  · intro fs sp dp c cp b hwf h1 hap hne
    cases hcp : copyFile fs sp dp with
    | mk fs1 ok =>
      have hl1 : lookup fs1 sp = some (Node.file c cp) := by
        have := @copyFile_preserve fs (Node.file c cp) sp dp sp h1
          (by rfl) hap
        rw [hcp] at this
        exact this
      have hw1 : wfN fs1 = true := by
        have := wfN_copyFile sp dp hwf
        rw [hcp] at this
        exact this
      obtain ⟨fs2, hrm⟩ := removeAt_isSome hl1 hne
      have hor : osRemove fs1 sp = some fs2 := by
        unfold osRemove
        rw [hl1]
        exact hrm
      have hnone : lookup fs2 sp = none := lookup_removeAt_self hw1 hrm
      simp only [backupPhase, h1, hcp, hor]
      exact hnone
  · intro fs sp dp m cs b hwf h1 hne
    cases hcd : copyDir fs sp dp with
    | mk fs1 ok =>
      have hw1 : wfN fs1 = true := by
        have := wfN_copyDir sp dp hwf
        rw [hcd] at this
        exact this
      have hnone : lookup (removeAll fs1 sp) sp = none :=
        lookup_removeAll_self hw1 hne
      simp only [backupPhase, h1, hcd]
      exact hnone

theorem claim9_unconditional_delete_witness :
    ((copyFile fsRepoBlocked ["home", ".bashrc"]
        ["repo", "dotfiles", ".bashrc"]).2 = false ∧
      lookup ((backupPhase fsRepoBlocked ["home", ".bashrc"]
          ["repo", "dotfiles", ".bashrc"] false).1)
        ["home", ".bashrc"] = none) ∧
    ((copyDir fsRepoBlocked ["home", "cfg"]
        ["repo", "dotfiles", "cfg"]).2 = false ∧
      lookup ((backupPhase fsRepoBlocked ["home", "cfg"]
          ["repo", "dotfiles", "cfg"] false).1) ["home", "cfg"] = none) :=
  ⟨⟨rfl, claim9_unconditional_delete.1 fsRepoBlocked ["home", ".bashrc"]
      ["repo", "dotfiles", ".bashrc"] [7] 0o600 false rfl rfl rfl
      (by simp)⟩,
   ⟨rfl, claim9_unconditional_delete.2 fsRepoBlocked ["home", "cfg"]
      ["repo", "dotfiles", "cfg"] 0o700 [("a", Node.file [1] 0o600)]
      false rfl rfl (by simp)⟩⟩

/-- C7: the copy operation duplicates file bytes for a regular file and
recursively duplicates the full tree for a directory; every directory it
creates carries the corresponding source directory permission bits while
every file is created with the default 0o666 bits rather than the source
file permissions (both facts are read off copyShape, which keeps
directory permissions and rewrites every file permission to 0o666). -/
theorem claim7_copy_contract :
    (∀ fs (src q : Path) (n : String) (c : List Nat) (cp m : Nat)
        (dcs : List (String × Node)),
      lookup fs src = some (Node.file c cp) →
      lookup fs q = some (Node.dir m dcs) →
      lookup fs (q ++ [n]) = none →
      (copyFile fs src (q ++ [n])).2 = true ∧
        lookup (copyFile fs src (q ++ [n])).1 (q ++ [n]) =
          some (Node.file c 0o666)) ∧
    (∀ fs (src q : Path) (n : String) (m : Nat)
        (cs : List (String × Node)) (pm : Nat)
        (pcs : List (String × Node)),
      lookup fs src = some (Node.dir m cs) →
      wfN (Node.dir m cs) = true → sfN (Node.dir m cs) = true →
      lookup fs (q ++ [n]) = none →
      lookup fs q = some (Node.dir pm pcs) →
      apart src (q ++ [n]) = true →
      (copyDir fs src (q ++ [n])).2 = true ∧
        lookup (copyDir fs src (q ++ [n])).1 (q ++ [n]) =
          some (copyShape (Node.dir m cs))) := by
  constructor
  · intro fs src q n c cp m dcs h1 h2 h3
    obtain ⟨fs', hset, hcp⟩ := copyFile_ok h1 h2 h3
    rw [hcp]
    exact ⟨rfl, lookup_setAt_self hset⟩
  · intro fs src q n m cs pm pcs h1 hwf hsf h3 h4 h5
    obtain ⟨fs', hset, hcd⟩ := copyDir_ok h1 hwf hsf h3 h4 h5
    rw [hcd]
    exact ⟨rfl, lookup_setAt_self hset⟩

theorem claim7_copy_contract_witness :
    ((copyFile fsHomeFile ["home", ".bashrc"]
        (["repo", "dotfiles"] ++ [".bashrc"])).2 = true ∧
      lookup (copyFile fsHomeFile ["home", ".bashrc"]
          (["repo", "dotfiles"] ++ [".bashrc"])).1
        (["repo", "dotfiles"] ++ [".bashrc"]) =
        some (Node.file [1, 2, 3] 0o666)) ∧
    ((copyDir fsHomeTree ["home", "cfg"]
        (["repo", "dotfiles"] ++ ["cfg"])).2 = true ∧
      lookup (copyDir fsHomeTree ["home", "cfg"]
          (["repo", "dotfiles"] ++ ["cfg"])).1
        (["repo", "dotfiles"] ++ ["cfg"]) =
        some (copyShape (Node.dir 0o700
          [("sub", Node.dir 0o711 [("x", Node.file [4, 5] 0o640)]),
           ("y", Node.file [6] 0o600)]))) :=
  ⟨claim7_copy_contract.1 fsHomeFile ["home", ".bashrc"]
      ["repo", "dotfiles"] ".bashrc" [1, 2, 3] 0o644 0o755 [] rfl rfl rfl,
   claim7_copy_contract.2 fsHomeTree ["home", "cfg"] ["repo", "dotfiles"]
      "cfg" 0o700
      [("sub", Node.dir 0o711 [("x", Node.file [4, 5] 0o640)]),
       ("y", Node.file [6] 0o600)] 0o755 [] rfl rfl rfl rfl rfl rfl⟩

theorem backup_move_core {fs fsm : Node} {sp dp : Path} {c : List Nat}
    {cp : Nat} (hwf : wfN fs = true)
    (h1 : lookup fs sp = some (Node.file c cp))
    (h2 : lookup fs dp = none)
    (h3 : mkdirAll fs dp.dropLast 0o755 = some fsm)
    (h4 : apart sp dp = true) :
    lookup ((symlinkPhase (backupPhase fs sp dp false).1 sp dp).1) sp =
      some (Node.symlink dp) ∧
    lookup ((symlinkPhase (backupPhase fs sp dp false).1 sp dp).1) dp =
      some (Node.file c 0o666) := by
  have hdpne : dp ≠ [] := by
    rintro rfl
    simp [lookup] at h2
  have hspne : sp ≠ [] := by
    rintro rfl
    have hfs : fs = Node.file c cp := by
      simp only [lookup] at h1
      injection h1
    subst hfs
    rw [mkdirAll_file_none] at h3
    exact absurd h3 (by simp)
  obtain ⟨fs3, hset3, hcp⟩ := copyFile_mkdir_ok h1 h3 h2 hdpne
  have hl3 : lookup fs3 sp = some (Node.file c cp) := by
    rw [lookup_setAt_frame hset3 (apart_pfx_right h4) (apart_pfx_left h4)]
    exact mkdirAll_preserve h3 h1 (by rfl)
  have hw3 : wfN fs3 = true :=
    wfN_setAt (wfN_mkdirAll hwf h3) (by rfl) hset3
  obtain ⟨fs4, hrm⟩ := removeAt_isSome hl3 hspne
  have hor : osRemove fs3 sp = some fs4 := by
    unfold osRemove
    rw [hl3]
    exact hrm
  have hl4 : lookup fs4 sp = none := lookup_removeAt_self hw3 hrm
  have hbp : (backupPhase fs sp dp false).1 = fs4 := by
    simp only [backupPhase, h1, hcp, hor]
  have hl4d : lookup fs4 dp = some (Node.file c 0o666) := by
    rw [lookup_removeAt_frame hrm (apart_pfx_left h4)
      (apart_pfx_right h4)]
    exact lookup_setAt_self hset3
  have hsp_eq : sp.dropLast ++ [sp.getLast hspne] = sp :=
    List.dropLast_append_getLast hspne
  have h1' := h1
  rw [← hsp_eq] at h1'
  obtain ⟨dm0, dcs0, hpar0⟩ := lookup_single_parent h1'
  obtain ⟨dcs1, hpar1⟩ := mkdirAll_dir h3 hpar0
  have hpfx_dp : pfx dp sp.dropLast = false := by
    apply pfx_not_of_append_right (sp.getLast hspne)
    rw [hsp_eq]
    exact apart_pfx_right h4
  obtain ⟨dcs3, hpar3⟩ := lookup_setAt_dir hset3 hpfx_dp hpar1
  have hpfx_sp : pfx sp sp.dropLast = false := by
    have := pfx_concat_self sp.dropLast (sp.getLast hspne)
    rwa [hsp_eq] at this
  obtain ⟨dcs4, hpar4⟩ := lookup_removeAt_dir hrm hpfx_sp hpar3
  obtain ⟨fs5, hset5⟩ := setAt_concat_isSome hpar4 (sp.getLast hspne)
    (Node.symlink dp)
  rw [hsp_eq] at hset5
  have hstat4 : stat fs4 dp = some (Node.file c 0o666) :=
    stat_of_file hl4d
  have hsl : (symlinkPhase fs4 sp dp).1 = fs5 := by
    simp only [symlinkPhase, hl4, hstat4, hset5]
  rw [hbp, hsl]
  constructor
  · exact lookup_setAt_self hset5
  · rw [lookup_setAt_frame hset5 (apart_pfx_left h4)
      (apart_pfx_right h4)]
    exact hl4d

/-- C1: for every tracked item whose source is a regular file with no
existing repository copy (the destination parent being creatable and the
two paths disjoint), one init pass over the item leaves a symlink at the
source path pointing at the repository copy, and the repository copy
holds exactly the original bytes. -/
theorem claim1_init_moves_regular_file (fs fsm : Node)
    (item homeDir repoD : Path) (c : List Nat) (cp : Nat)
    (hwf : wfN fs = true)
    (h1 : lookup fs (homeDir ++ item) = some (Node.file c cp))
    (h2 : lookup fs (repoD ++ item) = none)
    (h3 : mkdirAll fs (repoD ++ item).dropLast 0o755 = some fsm)
    (h4 : apart (homeDir ++ item) (repoD ++ item) = true) :
    lookup ((processPath fs item homeDir repoD false).1)
        (homeDir ++ item) = some (Node.symlink (repoD ++ item)) ∧
    lookup ((processPath fs item homeDir repoD false).1)
        (repoD ++ item) = some (Node.file c 0o666) := by
  rw [processPath_fst_eq]
  exact backup_move_core hwf h1 h2 h3 h4

theorem claim1_init_moves_regular_file_witness :
    lookup ((processPath fsHomeFile [".bashrc"] ["home"]
        ["repo", "dotfiles"] false).1) (["home"] ++ [".bashrc"]) =
      some (Node.symlink (["repo", "dotfiles"] ++ [".bashrc"])) ∧
    lookup ((processPath fsHomeFile [".bashrc"] ["home"]
        ["repo", "dotfiles"] false).1)
        (["repo", "dotfiles"] ++ [".bashrc"]) =
      some (Node.file [1, 2, 3] 0o666) :=
  claim1_init_moves_regular_file fsHomeFile fsHomeFile [".bashrc"]
    ["home"] ["repo", "dotfiles"] [1, 2, 3] 0o644 rfl rfl rfl rfl rfl

end Gotfiles
